import Mathlib

/-!
Verification of the nfs-cachefs cache subsystem specification against a
shallow embedding of the source (src/cache/state.rs, src/cache/task.rs,
src/cache/eviction.rs, src/cache/manager.rs).

Modelling conventions:
* machine integers (`u64`, `u32`) are modelled as `Nat`; none of the verified
  claims exercises overflow behaviour;
* `SystemTime` values are modelled as seconds / abstract ticks (`Nat`);
* the shared `Arc<AtomicU64>` progress counter of an in-progress entry is
  modelled by its current value, and by the list of values stored to it
  where a claim is about the sequence of stores;
* file-system paths (`PathBuf`) are modelled structurally as an
  absolute-flag plus a list of components (`RPath`), except where a claim
  is about file-name string manipulation, where the file name is a string;
* fallible syscalls are oracle inputs (`Except`/`Bool` parameters).
-/

namespace NfsCachefs

/-- Model of `CachePriority` (src/cache/state.rs): `Low = 0, Normal = 1,
High = 2, Critical = 3`. -/
inductive CachePriority where
  | low
  | normal
  | high
  | critical
  deriving DecidableEq, Repr

/-- Discriminant of a `CachePriority`, as assigned in the source enum. -/
def CachePriority.toNat : CachePriority → Nat
  | .low => 0
  | .normal => 1
  | .high => 2
  | .critical => 3

/-- Model of the derived `Ord::cmp` on `CachePriority` (discriminant order). -/
def CachePriority.cmp (a b : CachePriority) : Ordering :=
  compare a.toNat b.toNat

/-- Model of `CacheStatus` (src/cache/state.rs). Timestamps are `Nat`
seconds; the `Arc<AtomicU64>` progress handle is modelled by its value. -/
inductive CacheStatus where
  | notCached
  | cachingInProgress (started_at : Nat) (progress : Nat) (total_size : Nat)
  | cached (cached_at : Nat) (last_accessed : Nat) (file_size : Nat)
  | failed (failed_at : Nat) (error_message : String) (retry_count : Nat)
  deriving DecidableEq, Repr

/-- Model of `CacheStatus::is_cached`. -/
def CacheStatus.is_cached : CacheStatus → Bool
  | .cached _ _ _ => true
  | _ => false

/-- Model of `CacheStatus::is_caching`. -/
def CacheStatus.is_caching : CacheStatus → Bool
  | .cachingInProgress _ _ _ => true
  | _ => false

/-- Model of `CacheStatus::is_failed`. -/
def CacheStatus.is_failed : CacheStatus → Bool
  | .failed _ _ _ => true
  | _ => false

/-- Model of `CacheEntry` (src/cache/state.rs). -/
structure CacheEntry where
  size : Nat
  status : CacheStatus
  access_count : Nat
  checksum : Option String
  created_at : Nat
  last_modified : Nat
  priority : CachePriority
  deriving DecidableEq, Repr

/-- Model of `CacheEntry::new(size)`; `now` stands for `SystemTime::now()`. -/
def CacheEntry.new (size : Nat) (now : Nat) : CacheEntry :=
  { size := size
    status := .notCached
    access_count := 0
    checksum := none
    created_at := now
    last_modified := now
    priority := .normal }

/-- Model of `CacheEntry::with_priority`. -/
def CacheEntry.with_priority (e : CacheEntry) (p : CachePriority) : CacheEntry :=
  { e with priority := p }

/-- Model of `CacheEntry::start_caching(total_size)`: installs an in-progress
status with a fresh progress counter at 0. -/
def CacheEntry.start_caching (e : CacheEntry) (total_size : Nat) (now : Nat) : CacheEntry :=
  { e with status := .cachingInProgress now 0 total_size }

/-- Model of `CacheEntry::complete_caching(file_size, checksum)`. -/
def CacheEntry.complete_caching (e : CacheEntry) (file_size : Nat)
    (checksum : Option String) (now : Nat) : CacheEntry :=
  { e with status := .cached now now file_size, checksum := checksum, last_modified := now }

/-- Model of `CacheEntry::mark_failed(error_message, retry_count)`. -/
def CacheEntry.mark_failed (e : CacheEntry) (error_message : String)
    (retry_count : Nat) (now : Nat) : CacheEntry :=
  { e with status := .failed now error_message retry_count, last_modified := now }

/-! ## Structural paths

`RPath` models a `PathBuf` as an absolute flag plus a component list, the
standard-library semantics the manager relies on: `strip_prefix` succeeds
exactly on component-wise prefixes, and `join` with an absolute argument
replaces the base entirely. -/

/-- Structural model of a `PathBuf`. -/
structure RPath where
  absolute : Bool
  components : List String
  deriving DecidableEq, Repr

/-- Model of `Path::strip_prefix`: succeeds iff `base` is a component-wise
prefix (with matching absoluteness) and returns the relative remainder. -/
def stripPrefixPath (p base : RPath) : Option RPath :=
  if p.absolute = base.absolute ∧ base.components <+: p.components then
    some ⟨false, p.components.drop base.components.length⟩
  else
    none

/-- Model of `Path::join`: an absolute argument replaces the base path. -/
def joinPath (base p : RPath) : RPath :=
  if p.absolute then p else ⟨base.absolute, base.components ++ p.components⟩

/-- Model of the `Config` fields consumed by the cache manager
(src/core/config.rs). -/
structure Config where
  nfs_backend_path : RPath
  cache_dir : RPath
  max_cache_size_bytes : Nat
  cache_ttl_seconds : Option Nat
  enable_checksums : Bool

/-- Model of `CacheManager::get_cache_path` (src/cache/manager.rs lines
139-144): `cache_dir.join(nfs_path.strip_prefix(backend).unwrap_or(nfs_path))`. -/
def getCachePath (cfg : Config) (nfs_path : RPath) : RPath :=
  joinPath cfg.cache_dir ((stripPrefixPath nfs_path cfg.nfs_backend_path).getD nfs_path)

/-! ## File-name extension manipulation (for `get_temp_path`)

`CacheTask::get_temp_path` uses `PathBuf::with_extension`, whose semantics
on the file name are: the extension is the portion after the final dot,
except that a name with no dot, or whose only dot is the leading character,
has no extension; `with_extension(ext)` replaces it with `stem ++ "." ++ ext`. -/

/-- Index of the last occurrence of a dot in a file name, if any. -/
def lastDotIdx : List Char → Option Nat
  | [] => none
  | c :: cs =>
    match lastDotIdx cs with
    | some i => some (i + 1)
    | none => if c = '.' then some 0 else none

/-- Model of `Path::file_stem` restricted to a file name: everything before
the final dot, except that a dotless name or a leading-dot-only name is its
own stem. -/
def fileStemChars (s : List Char) : List Char :=
  match lastDotIdx s with
  | none => s
  | some 0 => s
  | some (i + 1) => s.take (i + 1)

/-- Whether a file name has an extension in the `Path::extension` sense. -/
def fileNameHasExt (name : String) : Bool :=
  match lastDotIdx name.data with
  | none => false
  | some 0 => false
  | some (_ + 1) => true

/-- Model of `Path::with_extension` on a file name with a nonempty new
extension: `file_stem ++ "." ++ ext`. -/
def withExtensionName (name : List Char) (ext : List Char) : List Char :=
  fileStemChars name ++ ('.' :: ext)

/-- String wrapper for `withExtensionName`. -/
def withExtensionStr (name : String) (ext : String) : String :=
  String.mk (withExtensionName name.data ext.data)

/-- Model of `PathBuf::with_extension` on a structural path: rewrites the
final component; a path without a file name is left unchanged. -/
def setFileExtension (p : RPath) (ext : String) : RPath :=
  match p.components.getLast? with
  | none => p
  | some name => ⟨p.absolute, p.components.dropLast ++ [withExtensionStr name ext]⟩

/-! ## Copy tasks (src/cache/task.rs) -/

/-- Model of `CacheTask` (src/cache/task.rs). The id is produced by
`generate_task_id`, which hashes wall-clock nanoseconds; it is carried
abstractly here and studied separately below. -/
structure CacheTask where
  id : String
  source_path : RPath
  cache_path : RPath
  priority : CachePriority
  retry_count : Nat
  max_retries : Nat
  created_at : Nat
  file_size : Option Nat
  enable_checksum : Bool
  deriving DecidableEq, Repr

/-- Model of `CacheTask::new`; the generated id is abstracted as `""`. -/
def CacheTask.new (source cache : RPath) (now : Nat) : CacheTask :=
  { id := ""
    source_path := source
    cache_path := cache
    priority := .normal
    retry_count := 0
    max_retries := 3
    created_at := now
    file_size := none
    enable_checksum := false }

/-- Model of `CacheTask::with_priority`. -/
def CacheTask.with_priority (t : CacheTask) (p : CachePriority) : CacheTask :=
  { t with priority := p }

/-- Model of `CacheTask::with_checksum`. -/
def CacheTask.with_checksum (t : CacheTask) (b : Bool) : CacheTask :=
  { t with enable_checksum := b }

/-- Model of `CacheTask::with_file_size`. -/
def CacheTask.with_file_size (t : CacheTask) (n : Nat) : CacheTask :=
  { t with file_size := some n }

/-- Model of `CacheTask::with_max_retries`. -/
def CacheTask.with_max_retries (t : CacheTask) (n : Nat) : CacheTask :=
  { t with max_retries := n }

/-- Model of `CacheTask::can_retry`: `retry_count < max_retries`. -/
def CacheTask.can_retry (t : CacheTask) : Bool :=
  decide (t.retry_count < t.max_retries)

/-- Model of `CacheTask::increment_retry`. -/
def CacheTask.increment_retry (t : CacheTask) : CacheTask :=
  { t with retry_count := t.retry_count + 1 }

/-- Model of `CacheTask::get_temp_path` (src/cache/task.rs lines 63-65):
`cache_path.with_extension(format!("caching.{}", retry_count))`. -/
def CacheTask.get_temp_path (t : CacheTask) : RPath :=
  setFileExtension t.cache_path ("caching." ++ toString t.retry_count)

/-- Model of `CacheTask::generate_task_id` (src/cache/task.rs lines 67-74):
SHA-256 over the path bytes followed by the big-endian nanosecond clock
bytes, rendered as lowercase hex, truncated to its first 16 characters.
The digest-to-hex function is abstract (`sha256_hex`); its output for a
SHA-256 digest is a 64-character hex string. -/
def generate_task_id (sha256_hex : List Nat → List Char)
    (path_bytes clock_bytes : List Nat) : List Char :=
  (sha256_hex (path_bytes ++ clock_bytes)).take 16

/-- Bit width encoded by a hex identifier: four bits per hex character. -/
def idBitWidth (id : List Char) : Nat := 4 * id.length

/-! ## Claim C9 -/

/-- Claim C9: for a source path that is not under the configured backend
root, `get_cache_path` joins the unmodified source path onto the cache
root, and when that source path is absolute the computed destination is the
source path itself (so the destination lies outside the cache root rather
than being rejected). -/
theorem c9_cache_path_passthrough (cfg : Config) (nfs_path : RPath)
    (h : stripPrefixPath nfs_path cfg.nfs_backend_path = none) :
    getCachePath cfg nfs_path = joinPath cfg.cache_dir nfs_path ∧
    (nfs_path.absolute = true → getCachePath cfg nfs_path = nfs_path) := by
  constructor
  · simp [getCachePath, h]
  · intro habs
    simp [getCachePath, h, joinPath, habs]

/-- Witness for C9 at a concrete configuration: `/data/file` is not under
the backend root `/mnt/nfs`, and its computed "cache" destination is
`/data/file` itself. -/
theorem c9_cache_path_passthrough_witness :
    stripPrefixPath ⟨true, ["data", "file"]⟩ ⟨true, ["mnt", "nfs"]⟩ = none ∧
    getCachePath
      { nfs_backend_path := ⟨true, ["mnt", "nfs"]⟩
        cache_dir := ⟨true, ["cache"]⟩
        max_cache_size_bytes := 0
        cache_ttl_seconds := none
        enable_checksums := false }
      ⟨true, ["data", "file"]⟩ = ⟨true, ["data", "file"]⟩ := by
  refine ⟨by decide, ?_⟩
  exact (c9_cache_path_passthrough
    { nfs_backend_path := ⟨true, ["mnt", "nfs"]⟩
      cache_dir := ⟨true, ["cache"]⟩
      max_cache_size_bytes := 0
      cache_ttl_seconds := none
      enable_checksums := false }
    ⟨true, ["data", "file"]⟩ (by decide)).2 rfl

/-! ## Claim C6: the per-attempt temp path -/

theorem stringMk_data (s : String) : String.mk s.data = s := by
  cases s
  rfl

theorem string_append_eq_mk (s t : String) : s ++ t = String.mk (s.data ++ t.data) := by
  cases s
  cases t
  rfl

theorem fileStemChars_of_no_ext (name : String) (h : fileNameHasExt name = false) :
    fileStemChars name.data = name.data := by
  unfold fileNameHasExt at h
  unfold fileStemChars
  cases hl : lastDotIdx name.data with
  | none => rfl
  | some i =>
    cases i with
    | zero => rfl
    | succ n => rw [hl] at h; simp at h

theorem withExtensionStr_of_no_ext (name rest : String) (h : fileNameHasExt name = false) :
    withExtensionStr name ("caching." ++ rest) = name ++ (".caching." ++ rest) := by
  unfold withExtensionStr withExtensionName
  rw [fileStemChars_of_no_ext name h, string_append_eq_mk name (".caching." ++ rest)]
  have hdot : (".caching." ++ rest).data = '.' :: ("caching." ++ rest).data := by
    rw [String.data_append, String.data_append]
    rfl
  rw [hdot]

/-- Counterexample to claim C6: for destination `/cache/test.txt` at retry
count 0, `get_temp_path` yields `/cache/test.caching.0` —
`PathBuf::with_extension` replaces the existing `.txt` extension — and not
the claimed `/cache/test.txt.caching.0`. -/
theorem c6_temp_path_cex :
    (CacheTask.new ⟨true, ["nfs", "test.txt"]⟩ ⟨true, ["cache", "test.txt"]⟩ 0).get_temp_path
      = ⟨true, ["cache", "test.caching.0"]⟩ ∧
    (CacheTask.new ⟨true, ["nfs", "test.txt"]⟩ ⟨true, ["cache", "test.txt"]⟩ 0).get_temp_path
      ≠ ⟨true, ["cache", "test.txt.caching.0"]⟩ := by
  constructor
  · rfl
  · decide

/-- Claim C6, amended: the temp path is the destination with its file-name
extension replaced by `caching.<retry-count>`; it equals the destination
with the literal string `".caching." ++ retry-count` appended exactly when
the destination's file name has no extension. -/
theorem c6_temp_path (t : CacheTask) (dir : List String) (name : String)
    (hc : t.cache_path.components = dir ++ [name])
    (hext : fileNameHasExt name = false) :
    t.get_temp_path =
      ⟨t.cache_path.absolute, dir ++ [name ++ ".caching." ++ toString t.retry_count]⟩ := by
  unfold CacheTask.get_temp_path setFileExtension
  rw [hc, List.getLast?_concat]
  dsimp only
  rw [List.dropLast_concat, withExtensionStr_of_no_ext name (toString t.retry_count) hext,
    ← String.append_assoc]

/-- Witness for the amended C6: a destination file name without an
extension gets the literal `".caching.<retry>"` suffix appended. -/
theorem c6_temp_path_witness :
    fileNameHasExt "model" = false ∧
    (CacheTask.new ⟨true, ["nfs", "model"]⟩ ⟨true, ["cache", "model"]⟩ 0).get_temp_path
      = ⟨true, ["cache", "model.caching.0"]⟩ := by
  refine ⟨by decide, ?_⟩
  exact c6_temp_path
    (CacheTask.new ⟨true, ["nfs", "model"]⟩ ⟨true, ["cache", "model"]⟩ 0)
    ["cache"] "model" rfl (by decide)

/-! ## Claim C8: the task identifier -/

/-- Counterexample to claim C8: the task identifier keeps only the first 16
hex characters of the SHA-256 hex digest (src/cache/task.rs line 73), which
encode 64 bits, not the claimed 128 bits. The digest function is
instantiated with a stand-in 64-character hex output. -/
theorem c8_task_id_cex :
    idBitWidth (generate_task_id (fun _ => List.replicate 64 'a') [1] [2]) = 64 ∧
    idBitWidth (generate_task_id (fun _ => List.replicate 64 'a') [1] [2]) ≠ 128 := by
  constructor
  · decide
  · decide

/-- Claim C8, amended: the task identifier is derived from the SHA-256 hash
of the task's path bytes together with the nanosecond clock bytes, but it
is a 64-bit identifier (16 hex characters), not a 128-bit one. -/
theorem c8_task_id_width (sha256_hex : List Nat → List Char)
    (path_bytes clock_bytes : List Nat)
    (h : (sha256_hex (path_bytes ++ clock_bytes)).length = 64) :
    idBitWidth (generate_task_id sha256_hex path_bytes clock_bytes) = 64 := by
  unfold generate_task_id idBitWidth
  rw [List.length_take, h]
  decide

/-- Witness for the amended C8 at a concrete 64-character digest. -/
theorem c8_task_id_width_witness :
    idBitWidth (generate_task_id (fun _ => List.replicate 64 'b') [3] [4]) = 64 :=
  c8_task_id_width (fun _ => List.replicate 64 'b') [3] [4] (by decide)

/-! ## Eviction policies (src/cache/eviction.rs)

All three `select_victims` implementations share the same shape: filter the
snapshot by the candidate predicate, sort by the policy's comparator
(`sort_by` — a stable ascending sort, modelled by stable insertion sort),
then walk the order accumulating declared sizes, breaking as soon as the
accumulation has met the requested amount *before* taking another victim.

The comparators depend on wall-clock floating-point scores
(`calculate_lru_score`), access-count tables, and the ARC `t1` ring; these
inputs are abstracted as function parameters, which is faithful because
`select_victims` only reads them through the comparator. -/

/-- Candidate filter shared by all three policies (src/cache/eviction.rs
lines 47-54, 121-127, 209-215): not in-progress, not in the pin-set, not
critical priority. -/
def isVictimCandidate (prot : List RPath) (pe : RPath × CacheEntry) : Bool :=
  !pe.2.status.is_caching && decide (pe.1 ∉ prot) &&
    decide (pe.2.priority ≠ CachePriority.critical)

/-- Stable insertion of an element into a ranked list: the element goes
before the first element it does not rank strictly after. -/
def insertRanked (rank : RPath × CacheEntry → RPath × CacheEntry → Ordering)
    (a : RPath × CacheEntry) : List (RPath × CacheEntry) → List (RPath × CacheEntry)
  | [] => [a]
  | b :: bs => if rank a b = Ordering.gt then b :: insertRanked rank a bs else a :: b :: bs

/-- Model of `slice::sort_by` (stable, ascending in the comparator). -/
def sortByRank (rank : RPath × CacheEntry → RPath × CacheEntry → Ordering) :
    List (RPath × CacheEntry) → List (RPath × CacheEntry)
  | [] => []
  | a :: xs => insertRanked rank a (sortByRank rank xs)

/-- The policy's ranked candidate ordering: filter then sort. -/
def rankedCandidates (rank : RPath × CacheEntry → RPath × CacheEntry → Ordering)
    (prot : List RPath) (entries : List (RPath × CacheEntry)) :
    List (RPath × CacheEntry) :=
  sortByRank rank (entries.filter (isVictimCandidate prot))

/-- The victim-accumulation loop of `select_victims`: break before taking a
victim once the freed total has met the needed amount. -/
def selectVictimsLoop : List (RPath × CacheEntry) → Nat → Nat → List RPath
  | [], _, _ => []
  | (p, e) :: rest, freed, needed =>
    if needed ≤ freed then [] else p :: selectVictimsLoop rest (freed + e.size) needed

/-- Generic model of `select_victims` over an abstract comparator. -/
def select_victims (rank : RPath × CacheEntry → RPath × CacheEntry → Ordering)
    (prot : List RPath) (entries : List (RPath × CacheEntry)) (needed : Nat) :
    List RPath :=
  selectVictimsLoop (rankedCandidates rank prot entries) 0 needed

/-- Comparator of `LruEvictionPolicy::select_victims` (lines 57-59):
descending LRU score; `score` abstracts `calculate_lru_score`. -/
def lruRank (score : RPath × CacheEntry → Int)
    (a b : RPath × CacheEntry) : Ordering :=
  compare (score b) (score a)

/-- Comparator of `LfuEvictionPolicy::select_victims` (lines 130-137):
access frequency ascending, then priority ascending, then the other
entry's seconds-since-last-access (prefer evicting stale). -/
def lfuRank (access_counts : RPath → Nat)
    (last_access_seconds : RPath × CacheEntry → Nat)
    (a b : RPath × CacheEntry) : Ordering :=
  (compare (access_counts a.1) (access_counts b.1)).then
    ((CachePriority.cmp a.2.priority b.2.priority).then
      (compare (last_access_seconds b) (last_access_seconds a)))

/-- Comparator of `ArcEvictionPolicy::select_victims` (lines 218-227):
membership in the `t1` ring first, then ascending LRU score. -/
def arcRank (in_t1 : RPath → Bool) (score : RPath × CacheEntry → Int)
    (a b : RPath × CacheEntry) : Ordering :=
  match in_t1 a.1, in_t1 b.1 with
  | true, false => Ordering.lt
  | false, true => Ordering.gt
  | _, _ => compare (score a) (score b)

/-- `LruEvictionPolicy::select_victims` (lines 46-74). -/
def lruSelectVictims (score : RPath × CacheEntry → Int) (prot : List RPath)
    (entries : List (RPath × CacheEntry)) (needed : Nat) : List RPath :=
  select_victims (lruRank score) prot entries needed

/-- `LfuEvictionPolicy::select_victims` (lines 120-152). -/
def lfuSelectVictims (access_counts : RPath → Nat)
    (last_access_seconds : RPath × CacheEntry → Nat) (prot : List RPath)
    (entries : List (RPath × CacheEntry)) (needed : Nat) : List RPath :=
  select_victims (lfuRank access_counts last_access_seconds) prot entries needed

/-- `ArcEvictionPolicy::select_victims` (lines 208-242). -/
def arcSelectVictims (in_t1 : RPath → Bool) (score : RPath × CacheEntry → Int)
    (prot : List RPath) (entries : List (RPath × CacheEntry)) (needed : Nat) :
    List RPath :=
  select_victims (arcRank in_t1 score) prot entries needed

/-- Modelled from the spec's victim-selection contract wording: walk the
ranked candidate list, accumulating declared sizes, until the accumulation
meets or exceeds bytes-needed, returning the prefix of paths walked (the
whole list if the target is never met). The remaining-bytes argument is
the needed amount minus what has been accumulated so far. -/
def walkUntilMet : List (RPath × CacheEntry) → Nat → List RPath
  | [], _ => []
  | (p, e) :: rest, needed =>
    if needed = 0 then [] else p :: walkUntilMet rest (needed - e.size)

theorem selectVictimsLoop_eq_walk (l : List (RPath × CacheEntry)) :
    ∀ freed needed, selectVictimsLoop l freed needed = walkUntilMet l (needed - freed) := by
  induction l with
  | nil => intro freed needed; rfl
  | cons pe rest ih =>
    intro freed needed
    obtain ⟨p, e⟩ := pe
    simp only [selectVictimsLoop, walkUntilMet]
    have hiff : needed ≤ freed ↔ needed - freed = 0 := (Nat.sub_eq_zero_iff_le).symm
    by_cases h : needed ≤ freed
    · rw [if_pos h, if_pos (hiff.mp h)]
    · rw [if_neg h, if_neg (fun hz => h (hiff.mpr hz)), ih (freed + e.size) needed,
        Nat.sub_sub]

theorem mem_insertRanked (rank : RPath × CacheEntry → RPath × CacheEntry → Ordering)
    (a x : RPath × CacheEntry) (l : List (RPath × CacheEntry)) :
    x ∈ insertRanked rank a l ↔ x = a ∨ x ∈ l := by
  induction l with
  | nil => simp [insertRanked]
  | cons b bs ih =>
    simp only [insertRanked]
    by_cases h : rank a b = Ordering.gt
    · rw [if_pos h]
      simp [ih]
      tauto
    · rw [if_neg h]
      simp

theorem mem_sortByRank (rank : RPath × CacheEntry → RPath × CacheEntry → Ordering)
    (x : RPath × CacheEntry) (l : List (RPath × CacheEntry)) :
    x ∈ sortByRank rank l ↔ x ∈ l := by
  induction l with
  | nil => simp [sortByRank]
  | cons a xs ih =>
    simp only [sortByRank, mem_insertRanked, ih, List.mem_cons]

theorem selectVictimsLoop_mem (l : List (RPath × CacheEntry)) :
    ∀ freed needed p, p ∈ selectVictimsLoop l freed needed → ∃ e, (p, e) ∈ l := by
  induction l with
  | nil => intro freed needed p h; simp [selectVictimsLoop] at h
  | cons pe rest ih =>
    intro freed needed p h
    obtain ⟨q, e⟩ := pe
    simp only [selectVictimsLoop] at h
    by_cases hb : needed ≤ freed
    · rw [if_pos hb] at h; simp at h
    · rw [if_neg hb] at h
      rcases List.mem_cons.mp h with h1 | h2
      · exact ⟨e, by simp [h1]⟩
      · obtain ⟨e', he'⟩ := ih (freed + e.size) needed p h2
        exact ⟨e', List.mem_cons_of_mem _ he'⟩

theorem select_victims_mem (rank : RPath × CacheEntry → RPath × CacheEntry → Ordering)
    (prot : List RPath) (entries : List (RPath × CacheEntry)) (needed : Nat)
    (p : RPath) (hp : p ∈ select_victims rank prot entries needed) :
    ∃ e, (p, e) ∈ entries ∧ e.status.is_caching = false ∧ p ∉ prot ∧
      e.priority ≠ CachePriority.critical := by
  obtain ⟨e, he⟩ := selectVictimsLoop_mem _ _ _ _ hp
  rw [rankedCandidates, mem_sortByRank] at he
  have hmem := List.mem_filter.mp he
  refine ⟨e, hmem.1, ?_, ?_, ?_⟩
  · have := hmem.2
    simp only [isVictimCandidate, Bool.and_eq_true, Bool.not_eq_true',
      decide_eq_true_eq] at this
    exact this.1.1
  · have := hmem.2
    simp only [isVictimCandidate, Bool.and_eq_true, Bool.not_eq_true',
      decide_eq_true_eq] at this
    exact this.1.2
  · have := hmem.2
    simp only [isVictimCandidate, Bool.and_eq_true, Bool.not_eq_true',
      decide_eq_true_eq] at this
    exact this.2

theorem select_victims_eq_walk (rank : RPath × CacheEntry → RPath × CacheEntry → Ordering)
    (prot : List RPath) (entries : List (RPath × CacheEntry)) (needed : Nat) :
    select_victims rank prot entries needed =
      walkUntilMet (rankedCandidates rank prot entries) needed := by
  rw [select_victims, selectVictimsLoop_eq_walk, Nat.sub_zero]

/-- Claim C1: every path returned by any of the three `select_victims`
implementations belongs to an entry that is not caching-in-progress, not
pinned and not critical; and the returned list is exactly the
size-accumulating prefix of the policy's ranked candidate ordering, as the
spec's victim-selection contract describes. -/
theorem c1_select_victims_spec (score : RPath × CacheEntry → Int)
    (access_counts : RPath → Nat) (last_access_seconds : RPath × CacheEntry → Nat)
    (in_t1 : RPath → Bool) (prot : List RPath)
    (entries : List (RPath × CacheEntry)) (needed : Nat) :
    (∀ p ∈ lruSelectVictims score prot entries needed,
      ∃ e, (p, e) ∈ entries ∧ e.status.is_caching = false ∧ p ∉ prot ∧
        e.priority ≠ CachePriority.critical) ∧
    lruSelectVictims score prot entries needed =
      walkUntilMet (rankedCandidates (lruRank score) prot entries) needed ∧
    (∀ p ∈ lfuSelectVictims access_counts last_access_seconds prot entries needed,
      ∃ e, (p, e) ∈ entries ∧ e.status.is_caching = false ∧ p ∉ prot ∧
        e.priority ≠ CachePriority.critical) ∧
    lfuSelectVictims access_counts last_access_seconds prot entries needed =
      walkUntilMet (rankedCandidates (lfuRank access_counts last_access_seconds) prot entries) needed ∧
    (∀ p ∈ arcSelectVictims in_t1 score prot entries needed,
      ∃ e, (p, e) ∈ entries ∧ e.status.is_caching = false ∧ p ∉ prot ∧
        e.priority ≠ CachePriority.critical) ∧
    arcSelectVictims in_t1 score prot entries needed =
      walkUntilMet (rankedCandidates (arcRank in_t1 score) prot entries) needed :=
  ⟨fun p hp => select_victims_mem _ _ _ _ p hp,
   select_victims_eq_walk _ _ _ _,
   fun p hp => select_victims_mem _ _ _ _ p hp,
   select_victims_eq_walk _ _ _ _,
   fun p hp => select_victims_mem _ _ _ _ p hp,
   select_victims_eq_walk _ _ _ _⟩

/-- Witness for C1 at a concrete snapshot: a lone cached entry of size 5 is
selected by the recency policy for a 3-byte request, and the theorem yields
its candidate properties at that input. -/
theorem c1_select_victims_spec_witness :
    (⟨true, ["cache", "a"]⟩ : RPath) ∈
      lruSelectVictims (fun _ => 0) []
        [(⟨true, ["cache", "a"]⟩, { (CacheEntry.new 5 0) with status := .cached 0 0 5 })] 3 ∧
    ∃ e, ((⟨true, ["cache", "a"]⟩ : RPath), e) ∈
        [(⟨true, ["cache", "a"]⟩, { (CacheEntry.new 5 0) with status := .cached 0 0 5 })] ∧
      e.status.is_caching = false ∧ (⟨true, ["cache", "a"]⟩ : RPath) ∉ ([] : List RPath) ∧
      e.priority ≠ CachePriority.critical := by
  refine ⟨by decide, ?_⟩
  exact (c1_select_victims_spec (fun _ => 0) (fun _ => 0) (fun _ => 0) (fun _ => false) []
    [(⟨true, ["cache", "a"]⟩, { (CacheEntry.new 5 0) with status := .cached 0 0 5 })] 3).1
    ⟨true, ["cache", "a"]⟩ (by decide)

/-! ## Claim C7: the progress atomic

`copy_file_chunked` (src/cache/manager.rs lines 906-929) stores the running
`total_copied` byte count into the entry's shared progress atomic after
every chunk. On a retry (lines 569-578) the worker keeps the same entry —
and hence the same progress atomic — while the new attempt restarts
`total_copied` at 0. `progressStores chunks acc` is the sequence of values
stored by one attempt whose successive successful reads return `chunks`
bytes; `promotionStores` concatenates the stores of all attempts of one
promotion into the same atomic. -/

def progressStores : List Nat → Nat → List Nat
  | [], _ => []
  | c :: cs, acc => (acc + c) :: progressStores cs (acc + c)

def promotionStores (attempts : List (List Nat)) : List Nat :=
  (attempts.map (fun chunks => progressStores chunks 0)).flatten

theorem progressStores_bounds (chunks : List Nat) :
    ∀ acc, List.Chain' (· ≤ ·) (progressStores chunks acc) ∧
      ∀ v ∈ progressStores chunks acc, acc ≤ v ∧ v ≤ acc + chunks.sum := by
  induction chunks with
  | nil => intro acc; exact ⟨List.chain'_nil, by simp [progressStores]⟩
  | cons c cs ih =>
    intro acc
    obtain ⟨hchain, hbound⟩ := ih (acc + c)
    constructor
    · rw [progressStores]
      rcases hh : progressStores cs (acc + c) with _ | ⟨v, vs⟩
      · simp
      · rw [List.chain'_cons]
        refine ⟨?_, by rw [← hh]; exact hchain⟩
        have := hbound v (by rw [hh]; exact List.mem_cons_self v vs)
        exact this.1
    · intro v hv
      rw [progressStores, List.mem_cons] at hv
      rcases hv with h1 | h2
      · subst h1
        simp only [List.sum_cons]
        omega
      · have := hbound v h2
        simp only [List.sum_cons]
        omega

/-- Counterexample to claim C7: a promotion whose first attempt copies two
2-byte chunks and then fails, and whose second attempt copies a 1-byte
chunk, stores the sequence `[2, 4, 1]` into the same progress atomic — not
monotonically non-decreasing across retry attempts. -/
theorem c7_progress_cex :
    promotionStores [[2, 2], [1]] = [2, 4, 1] ∧
    ¬ List.Chain' (· ≤ ·) (promotionStores [[2, 2], [1]]) := by
  refine ⟨rfl, ?_⟩
  intro h
  rw [show promotionStores [[2, 2], [1]] = [2, 4, 1] from rfl] at h
  rcases List.chain'_cons.mp h with ⟨-, h2⟩
  rcases List.chain'_cons.mp h2 with ⟨h41, -⟩
  omega

/-- Claim C7, amended: within each single copy attempt the values stored to
the progress atomic are monotonically non-decreasing, and they are all
≤ the status's total-size provided the attempt reads at most total-size
bytes in total; across retry attempts the sequence restarts from the first
chunk of the new attempt and may decrease. -/
theorem c7_progress_per_attempt (chunks : List Nat) (total_size : Nat)
    (h : chunks.sum ≤ total_size) :
    List.Chain' (· ≤ ·) (progressStores chunks 0) ∧
    ∀ v ∈ progressStores chunks 0, v ≤ total_size := by
  obtain ⟨hchain, hbound⟩ := progressStores_bounds chunks 0
  refine ⟨hchain, fun v hv => ?_⟩
  have := (hbound v hv).2
  omega

/-- Witness for the amended C7 at a concrete attempt. -/
theorem c7_progress_per_attempt_witness :
    List.Chain' (· ≤ ·) (progressStores [2, 3] 0) ∧
    ∀ v ∈ progressStores [2, 3] 0, v ≤ 5 :=
  c7_progress_per_attempt [2, 3] 5 (by decide)

/-! ## Claim C4: worker failure handling

`execute_cache_task_impl` (src/cache/manager.rs lines 423-596) is modelled
as a function of an oracle: one `AttemptOutcome` per loop iteration giving
the results of the fallible operations of that attempt. The entry the
worker updates is carried as an `Option CacheEntry`. -/

deriving instance DecidableEq for Except

/-- Oracle for one attempt of the worker loop: the result of
`copy_file_to_cache`, of `tokio::fs::metadata(&temp_path)` (the observed
temp-file length), and of `tokio::fs::rename`. -/
structure AttemptOutcome where
  copy_result : Except String (Option String)
  temp_metadata : Except String Nat
  rename_result : Except String Unit
  deriving DecidableEq, Repr

/-- Observable actions of the worker relevant to the claim. -/
inductive TaskEvent where
  | sleptMs (ms : Nat)
  | markedFailed (msg : String) (retry_count : Nat)
  | completedCaching (file_size : Nat)
  | recordedCacheError
  | recordedTaskComplete
  deriving DecidableEq, Repr

/-- Model of `entry.mark_failed(..)` guarded by the entry lookup. -/
def markEntryFailed (entry : Option CacheEntry) (msg : String) (rc : Nat)
    (now : Nat) : Option CacheEntry :=
  entry.map (fun e => e.mark_failed msg rc now)

/-- Model of `execute_cache_task_impl`: runs the retry loop over the oracle
list, returning the final entry, the emitted events, and the result
(`none` when the oracle list is exhausted before the loop returns). -/
def execute_cache_task_impl (task : CacheTask) (entry : Option CacheEntry) :
    List AttemptOutcome → Nat →
    Option CacheEntry × List TaskEvent × Option (Except String Unit)
  | [], _now => (entry, [], none)
  | o :: rest, now =>
    match o.copy_result with
    | .ok checksum =>
      let file_size := task.file_size.getD 0
      match o.temp_metadata with
      | .ok len =>
        if len ≠ file_size then
          (markEntryFailed entry "File size mismatch" task.retry_count now,
           [.markedFailed "File size mismatch" task.retry_count, .recordedCacheError],
           some (.error "File size mismatch"))
        else
          match o.rename_result with
          | .ok _ =>
            match entry with
            | some e =>
              (some (e.complete_caching file_size checksum now),
               [.completedCaching file_size, .recordedTaskComplete],
               some (.ok ()))
            | none => (none, [], some (.error "Cache entry lost"))
          | .error msg =>
            (markEntryFailed entry msg task.retry_count now,
             [.markedFailed msg task.retry_count, .recordedCacheError],
             some (.error msg))
      | .error msg =>
        (markEntryFailed entry msg task.retry_count now,
         [.markedFailed msg task.retry_count, .recordedCacheError],
         some (.error msg))
    | .error msg =>
      if task.retry_count < task.max_retries then
        let task' := task.increment_retry
        let r := execute_cache_task_impl task' entry rest now
        (r.1, .sleptMs (1000 * 2 ^ min task'.retry_count 5) :: r.2.1, r.2.2)
      else
        (markEntryFailed entry msg task.retry_count now,
         [.markedFailed msg task.retry_count, .recordedCacheError, .recordedTaskComplete],
         some (.error msg))

/-- Counterexample to claim C4: a size-verification mismatch on the first
attempt of a task whose retry count (0) is below its ceiling (3) is not
retried — the worker immediately marks the entry failed with the current
retry count and records error metrics, with no back-off sleep. -/
theorem c4_retry_cex :
    (((CacheTask.new ⟨true, ["nfs", "f"]⟩ ⟨true, ["cache", "f"]⟩ 0).with_file_size 10).can_retry
      = true) ∧
    execute_cache_task_impl
        ((CacheTask.new ⟨true, ["nfs", "f"]⟩ ⟨true, ["cache", "f"]⟩ 0).with_file_size 10)
        (some ((CacheEntry.new 10 0).start_caching 10 0))
        [{ copy_result := .ok none, temp_metadata := .ok 5, rename_result := .ok () }] 0
      = (some (((CacheEntry.new 10 0).start_caching 10 0).mark_failed "File size mismatch" 0 0),
         [.markedFailed "File size mismatch" 0, .recordedCacheError],
         some (.error "File size mismatch")) ∧
    TaskEvent.sleptMs 2000 ∉
      (execute_cache_task_impl
        ((CacheTask.new ⟨true, ["nfs", "f"]⟩ ⟨true, ["cache", "f"]⟩ 0).with_file_size 10)
        (some ((CacheEntry.new 10 0).start_caching 10 0))
        [{ copy_result := .ok none, temp_metadata := .ok 5, rename_result := .ok () }] 0).2.1 := by
  refine ⟨by decide, by decide, by decide⟩

/-- Claim C4, amended: only failures of the copy phase are retried — on a
copy error with retry count below the ceiling the worker increments the
retry count, sleeps `1000 · 2^min(retry, 5)` milliseconds (with `retry`
the incremented count) and restarts; a copy error with retries exhausted,
a size-verification mismatch, a temp-metadata error, and a failed rename
all transition the entry to failed with the error text and the current
retry count and record error metrics, without retrying. -/
theorem c4_retry_semantics (task : CacheTask) (entry : Option CacheEntry)
    (o : AttemptOutcome) (rest : List AttemptOutcome) (now : Nat) :
    (∀ msg, o.copy_result = .error msg → task.retry_count < task.max_retries →
      execute_cache_task_impl task entry (o :: rest) now =
        ((execute_cache_task_impl task.increment_retry entry rest now).1,
         .sleptMs (1000 * 2 ^ min (task.retry_count + 1) 5) ::
           (execute_cache_task_impl task.increment_retry entry rest now).2.1,
         (execute_cache_task_impl task.increment_retry entry rest now).2.2)) ∧
    (∀ msg, o.copy_result = .error msg → ¬ task.retry_count < task.max_retries →
      execute_cache_task_impl task entry (o :: rest) now =
        (markEntryFailed entry msg task.retry_count now,
         [.markedFailed msg task.retry_count, .recordedCacheError, .recordedTaskComplete],
         some (.error msg))) ∧
    (∀ checksum msg, o.copy_result = .ok checksum → o.temp_metadata = .error msg →
      execute_cache_task_impl task entry (o :: rest) now =
        (markEntryFailed entry msg task.retry_count now,
         [.markedFailed msg task.retry_count, .recordedCacheError],
         some (.error msg))) ∧
    (∀ checksum len, o.copy_result = .ok checksum → o.temp_metadata = .ok len →
      len ≠ task.file_size.getD 0 →
      execute_cache_task_impl task entry (o :: rest) now =
        (markEntryFailed entry "File size mismatch" task.retry_count now,
         [.markedFailed "File size mismatch" task.retry_count, .recordedCacheError],
         some (.error "File size mismatch"))) ∧
    (∀ checksum len msg, o.copy_result = .ok checksum → o.temp_metadata = .ok len →
      len = task.file_size.getD 0 → o.rename_result = .error msg →
      execute_cache_task_impl task entry (o :: rest) now =
        (markEntryFailed entry msg task.retry_count now,
         [.markedFailed msg task.retry_count, .recordedCacheError],
         some (.error msg))) := by
  refine ⟨?_, ?_, ?_, ?_, ?_⟩
  · intro msg hc hr
    simp only [execute_cache_task_impl, hc, if_pos hr, CacheTask.increment_retry]
  · intro msg hc hr
    simp only [execute_cache_task_impl, hc, if_neg hr]
  · intro checksum msg hc hm
    simp only [execute_cache_task_impl, hc, hm]
  · intro checksum len hc hm hne
    simp only [execute_cache_task_impl, hc, hm, if_pos hne]
  · intro checksum len msg hc hm heq hr
    simp only [execute_cache_task_impl, hc, hm, hr]
    rw [if_neg (fun hne => hne heq)]

/-- Witness for the amended C4: a copy error below the retry ceiling backs
off 2000 ms and restarts, while a temp-metadata error and a rename failure
each mark the entry failed without retrying, all derived from the theorem
at concrete inputs. -/
theorem c4_retry_semantics_witness :
    execute_cache_task_impl
        ((CacheTask.new ⟨true, ["nfs", "g"]⟩ ⟨true, ["cache", "g"]⟩ 0).with_file_size 4)
        (some ((CacheEntry.new 4 0).start_caching 4 0))
        [{ copy_result := .error "io", temp_metadata := .ok 4, rename_result := .ok () }] 0
      = ((execute_cache_task_impl
            (((CacheTask.new ⟨true, ["nfs", "g"]⟩ ⟨true, ["cache", "g"]⟩ 0).with_file_size 4).increment_retry)
            (some ((CacheEntry.new 4 0).start_caching 4 0)) [] 0).1,
         .sleptMs 2000 ::
           (execute_cache_task_impl
            (((CacheTask.new ⟨true, ["nfs", "g"]⟩ ⟨true, ["cache", "g"]⟩ 0).with_file_size 4).increment_retry)
            (some ((CacheEntry.new 4 0).start_caching 4 0)) [] 0).2.1,
         (execute_cache_task_impl
            (((CacheTask.new ⟨true, ["nfs", "g"]⟩ ⟨true, ["cache", "g"]⟩ 0).with_file_size 4).increment_retry)
            (some ((CacheEntry.new 4 0).start_caching 4 0)) [] 0).2.2) ∧
    execute_cache_task_impl
        ((CacheTask.new ⟨true, ["nfs", "g"]⟩ ⟨true, ["cache", "g"]⟩ 0).with_file_size 4)
        (some ((CacheEntry.new 4 0).start_caching 4 0))
        [{ copy_result := .ok none, temp_metadata := .error "stat", rename_result := .ok () }] 0
      = (markEntryFailed (some ((CacheEntry.new 4 0).start_caching 4 0)) "stat" 0 0,
         [.markedFailed "stat" 0, .recordedCacheError], some (.error "stat")) ∧
    execute_cache_task_impl
        ((CacheTask.new ⟨true, ["nfs", "g"]⟩ ⟨true, ["cache", "g"]⟩ 0).with_file_size 4)
        (some ((CacheEntry.new 4 0).start_caching 4 0))
        [{ copy_result := .ok none, temp_metadata := .ok 4, rename_result := .error "busy" }] 0
      = (markEntryFailed (some ((CacheEntry.new 4 0).start_caching 4 0)) "busy" 0 0,
         [.markedFailed "busy" 0, .recordedCacheError], some (.error "busy")) := by
  refine ⟨?_, ?_, ?_⟩
  · exact (c4_retry_semantics
      ((CacheTask.new ⟨true, ["nfs", "g"]⟩ ⟨true, ["cache", "g"]⟩ 0).with_file_size 4)
      (some ((CacheEntry.new 4 0).start_caching 4 0))
      { copy_result := .error "io", temp_metadata := .ok 4, rename_result := .ok () } [] 0).1
      "io" rfl (by decide)
  · exact (c4_retry_semantics
      ((CacheTask.new ⟨true, ["nfs", "g"]⟩ ⟨true, ["cache", "g"]⟩ 0).with_file_size 4)
      (some ((CacheEntry.new 4 0).start_caching 4 0))
      { copy_result := .ok none, temp_metadata := .error "stat", rename_result := .ok () } [] 0).2.2.1
      none "stat" rfl rfl
  · exact (c4_retry_semantics
      ((CacheTask.new ⟨true, ["nfs", "g"]⟩ ⟨true, ["cache", "g"]⟩ 0).with_file_size 4)
      (some ((CacheEntry.new 4 0).start_caching 4 0))
      { copy_result := .ok none, temp_metadata := .ok 4, rename_result := .error "busy" } [] 0).2.2.2.2
      none 4 "busy" rfl rfl (by decide) rfl

/-! ## The entry table

The manager's `DashMap<PathBuf, CacheEntry>` is modelled as an association
list with the usual unordered-map semantics: lookup returns the first
binding, insert replaces, remove erases. -/

abbrev Table := List (RPath × CacheEntry)

def lookupTable : Table → RPath → Option CacheEntry
  | [], _ => none
  | (k, e) :: t, p => if k = p then some e else lookupTable t p

def eraseTable : Table → RPath → Table
  | [], _ => []
  | (k, e) :: t, p => if k = p then eraseTable t p else (k, e) :: eraseTable t p

def insertTable (t : Table) (p : RPath) (e : CacheEntry) : Table :=
  (p, e) :: eraseTable t p

def keysNodup (t : Table) : Prop := (t.map Prod.fst).Nodup

/-- Model of `CacheManager::get_current_cache_size` (src/cache/manager.rs
lines 331-337): the sum of `entry.size` over entries whose status is
cached. -/
def get_current_cache_size (t : Table) : Nat :=
  ((t.filter (fun pe => pe.2.status.is_cached)).map (fun pe => pe.2.size)).sum

/-- Contribution of one entry to `get_current_cache_size`. -/
def cachedWeight (e : CacheEntry) : Nat :=
  if e.status.is_cached then e.size else 0

theorem get_current_cache_size_cons (k : RPath) (e : CacheEntry) (t : Table) :
    get_current_cache_size ((k, e) :: t) = cachedWeight e + get_current_cache_size t := by
  unfold get_current_cache_size cachedWeight
  by_cases h : e.status.is_cached
  · rw [List.filter_cons_of_pos (by simpa using h)]
    simp [h]
  · rw [List.filter_cons_of_neg (by simpa using h)]
    simp [h]

theorem lookup_eraseTable (t : Table) (p q : RPath) :
    lookupTable (eraseTable t p) q = if q = p then none else lookupTable t q := by
  induction t with
  | nil => simp [eraseTable, lookupTable]
  | cons ke t ih =>
    obtain ⟨k, e⟩ := ke
    simp only [eraseTable, lookupTable]
    by_cases hkp : k = p
    · rw [if_pos hkp, ih]
      by_cases hqp : q = p
      · simp [hqp]
      · have hkq : ¬ k = q := fun h => hqp (by rw [← h, hkp])
        simp [hqp, hkq]
    · rw [if_neg hkp]
      simp only [lookupTable]
      by_cases hkq : k = q
      · have hqp : ¬ q = p := fun h => hkp (by rw [hkq, h])
        simp [hkq, hqp]
      · simp [hkq, ih]

theorem lookup_insertTable (t : Table) (p : RPath) (e : CacheEntry) (q : RPath) :
    lookupTable (insertTable t p e) q = if q = p then some e else lookupTable t q := by
  unfold insertTable
  simp only [lookupTable]
  rw [lookup_eraseTable]
  by_cases hqp : q = p
  · subst hqp
    simp
  · have hpq : ¬ p = q := fun h => hqp h.symm
    simp [hqp, hpq]

theorem not_mem_keys_eraseTable (t : Table) (p : RPath) :
    p ∉ (eraseTable t p).map Prod.fst := by
  induction t with
  | nil => simp [eraseTable]
  | cons ke t ih =>
    obtain ⟨k, e⟩ := ke
    simp only [eraseTable]
    by_cases hkp : k = p
    · rw [if_pos hkp]; exact ih
    · rw [if_neg hkp]
      simp only [List.map_cons, List.mem_cons]
      rintro (h | h)
      · exact hkp h.symm
      · exact ih h

theorem keys_eraseTable_subset (t : Table) (p : RPath) :
    ∀ q, q ∈ (eraseTable t p).map Prod.fst → q ∈ t.map Prod.fst := by
  induction t with
  | nil => simp [eraseTable]
  | cons ke t ih =>
    obtain ⟨k, e⟩ := ke
    intro q hq
    simp only [eraseTable] at hq
    by_cases hkp : k = p
    · rw [if_pos hkp] at hq
      exact List.mem_cons_of_mem _ (ih q hq)
    · rw [if_neg hkp] at hq
      simp only [List.map_cons, List.mem_cons] at hq ⊢
      rcases hq with h | h
      · exact Or.inl h
      · exact Or.inr (ih q h)

theorem keysNodup_eraseTable (t : Table) (p : RPath) (h : keysNodup t) :
    keysNodup (eraseTable t p) := by
  induction t with
  | nil => simpa [eraseTable] using h
  | cons ke t ih =>
    obtain ⟨k, e⟩ := ke
    simp only [keysNodup, List.map_cons, List.nodup_cons] at h
    simp only [eraseTable]
    by_cases hkp : k = p
    · rw [if_pos hkp]; exact ih h.2
    · rw [if_neg hkp]
      simp only [keysNodup, List.map_cons, List.nodup_cons]
      exact ⟨fun hmem => h.1 (keys_eraseTable_subset t p k hmem), ih h.2⟩

theorem keysNodup_insertTable (t : Table) (p : RPath) (e : CacheEntry)
    (h : keysNodup t) : keysNodup (insertTable t p e) := by
  unfold insertTable
  simp only [keysNodup, List.map_cons, List.nodup_cons]
  exact ⟨not_mem_keys_eraseTable t p, keysNodup_eraseTable t p h⟩

theorem eraseTable_of_not_mem (t : Table) (p : RPath)
    (h : p ∉ t.map Prod.fst) : eraseTable t p = t := by
  induction t with
  | nil => rfl
  | cons ke t ih =>
    obtain ⟨k, e⟩ := ke
    simp only [List.map_cons, List.mem_cons] at h
    push_neg at h
    simp only [eraseTable]
    rw [if_neg (fun hkp => h.1 hkp.symm), ih h.2]

theorem get_current_cache_size_eraseTable (t : Table) (p : RPath) (e : CacheEntry)
    (hn : keysNodup t) (h : lookupTable t p = some e) :
    get_current_cache_size t = cachedWeight e + get_current_cache_size (eraseTable t p) := by
  induction t with
  | nil => simp [lookupTable] at h
  | cons ke t ih =>
    obtain ⟨k, e'⟩ := ke
    simp only [keysNodup, List.map_cons, List.nodup_cons] at hn
    simp only [lookupTable] at h
    simp only [eraseTable]
    by_cases hkp : k = p
    · rw [if_pos hkp] at h ⊢
      obtain rfl : e' = e := by injection h
      rw [eraseTable_of_not_mem t p (hkp ▸ hn.1), get_current_cache_size_cons]
    · rw [if_neg hkp] at h ⊢
      rw [get_current_cache_size_cons, get_current_cache_size_cons,
        ih hn.2 h]
      omega

theorem get_current_cache_size_insertTable (t : Table) (p : RPath) (e : CacheEntry) :
    get_current_cache_size (insertTable t p e) =
      cachedWeight e + get_current_cache_size (eraseTable t p) :=
  get_current_cache_size_cons p e (eraseTable t p)

theorem eraseTable_eraseTable (t : Table) (p : RPath) :
    eraseTable (eraseTable t p) p = eraseTable t p :=
  eraseTable_of_not_mem _ p (not_mem_keys_eraseTable t p)

/-! ## Eviction execution (src/cache/manager.rs lines 263-328)

`evict_files` walks the victim list: it removes each victim's entry from
the table, re-inserts it if the entry turned out to be caching-in-progress,
deletes the victim's local file (success is determined by whether the file
exists, `fsFiles`), re-inserts the entry if the deletion failed, and
accumulates freed bytes and the batch `on_remove` notification list,
breaking once the freed total has met the requested amount. The emitted
`FsEvent` trace records the order of entry removal versus file deletion. -/

/-- Observable file-system / table actions of eviction and cleanup. -/
inductive FsEvent where
  | entryRemoved (p : RPath)
  | fileRemoved (p : RPath)
  | fileRemoveFailed (p : RPath)
  | entryReinserted (p : RPath)
  deriving DecidableEq, Repr

/-- State threaded through the `evict_files` loop. -/
structure EvictState where
  table : Table
  fsFiles : RPath → Bool
  freed : Nat
  evicted : List RPath
  events : List FsEvent

/-- One iteration of the `evict_files` loop body for victim `v`. -/
def evictStep (s : EvictState) (v : RPath) : EvictState :=
  match lookupTable s.table v with
  | none => s
  | some e =>
    if e.status.is_caching then
      { s with table := insertTable (eraseTable s.table v) v e,
               events := s.events ++ [.entryRemoved v, .entryReinserted v] }
    else if s.fsFiles v then
      { table := eraseTable s.table v
        fsFiles := fun q => if q = v then false else s.fsFiles q
        freed := s.freed + e.size
        evicted := s.evicted ++ [v]
        events := s.events ++ [.entryRemoved v, .fileRemoved v] }
    else
      { s with table := insertTable (eraseTable s.table v) v e,
               events := s.events ++ [.entryRemoved v, .fileRemoveFailed v, .entryReinserted v] }

/-- The `evict_files` loop: process victims in order, breaking after an
iteration once the freed total has met the needed amount. -/
def evictLoop (needed : Nat) : List RPath → EvictState → EvictState
  | [], s => s
  | v :: rest, s =>
    let s' := evictStep s v
    if needed ≤ s'.freed then s' else evictLoop needed rest s'

/-- Model of `CacheManager::evict_files` body (the caller checks
`freed < needed` afterwards and turns it into `InsufficientSpace`). -/
def evict_files (t : Table) (fs : RPath → Bool) (victims : List RPath)
    (needed : Nat) : EvictState :=
  evictLoop needed victims { table := t, fsFiles := fs, freed := 0, evicted := [], events := [] }

/-- Case analysis of one eviction iteration: either the victim was absent
(no change), or its entry was removed and re-inserted unchanged (in
progress, or file deletion failed) with no freed bytes and no `on_remove`
entry, or the entry was removed for good together with its file. -/
theorem evictStep_shape (s : EvictState) (v : RPath) :
    evictStep s v = s ∨
    (∃ e, lookupTable s.table v = some e ∧
      (evictStep s v).table = insertTable (eraseTable s.table v) v e ∧
      (evictStep s v).fsFiles = s.fsFiles ∧
      (evictStep s v).freed = s.freed ∧
      (evictStep s v).evicted = s.evicted ∧
      ∃ blk, (evictStep s v).events = s.events ++ blk ∧ FsEvent.fileRemoved v ∉ blk) ∨
    (∃ e, lookupTable s.table v = some e ∧ e.status.is_caching = false ∧
      s.fsFiles v = true ∧
      (evictStep s v).table = eraseTable s.table v ∧
      (evictStep s v).fsFiles = (fun q => if q = v then false else s.fsFiles q) ∧
      (evictStep s v).freed = s.freed + e.size ∧
      (evictStep s v).evicted = s.evicted ++ [v] ∧
      (evictStep s v).events = s.events ++ [.entryRemoved v, .fileRemoved v]) := by
  unfold evictStep
  cases hl : lookupTable s.table v with
  | none => exact Or.inl rfl
  | some e =>
    dsimp only
    by_cases hcaching : e.status.is_caching
    · refine Or.inr (Or.inl ⟨e, rfl, ?_⟩)
      rw [if_pos hcaching]
      exact ⟨rfl, rfl, rfl, rfl, [.entryRemoved v, .entryReinserted v], rfl, by simp⟩
    · by_cases hfile : s.fsFiles v
      · refine Or.inr (Or.inr ⟨e, rfl, by simpa using hcaching, hfile, ?_⟩)
        rw [if_neg hcaching, if_pos hfile]
        exact ⟨rfl, rfl, rfl, rfl, rfl⟩
      · refine Or.inr (Or.inl ⟨e, rfl, ?_⟩)
        rw [if_neg hcaching, if_neg hfile]
        exact ⟨rfl, rfl, rfl, rfl,
          [.entryRemoved v, .fileRemoveFailed v, .entryReinserted v], rfl, by simp⟩

/-- The on-disk coupling invariant: a cache file exists at a path iff the
table holds a cached entry there (spec invariant 2). -/
def filesMatchCached (t : Table) (fs : RPath → Bool) : Prop :=
  ∀ p, fs p = true ↔ ∃ e, lookupTable t p = some e ∧ e.status.is_cached = true

/-- Declared sizes agree with a fixed per-destination size function. -/
def sizesConsistent (szOf : RPath → Nat) (t : Table) : Prop :=
  ∀ p e, lookupTable t p = some e → e.size = szOf p

theorem lookup_insert_erase_self (t : Table) (v : RPath) (e : CacheEntry)
    (h : lookupTable t v = some e) :
    ∀ q, lookupTable (insertTable (eraseTable t v) v e) q = lookupTable t q := by
  intro q
  rw [lookup_insertTable, lookup_eraseTable]
  by_cases hq : q = v
  · rw [if_pos hq, hq, h]
  · rw [if_neg hq, if_neg hq]

theorem get_current_cache_size_insert_erase_self (t : Table) (v : RPath) (e : CacheEntry)
    (hn : keysNodup t) (h : lookupTable t v = some e) :
    get_current_cache_size (insertTable (eraseTable t v) v e) = get_current_cache_size t := by
  rw [get_current_cache_size_insertTable, eraseTable_eraseTable,
    get_current_cache_size_eraseTable t v e hn h]

theorem evictStep_inv (s : EvictState) (v : RPath)
    (hn : keysNodup s.table) (hm : filesMatchCached s.table s.fsFiles) :
    keysNodup (evictStep s v).table ∧
    filesMatchCached (evictStep s v).table (evictStep s v).fsFiles ∧
    get_current_cache_size (evictStep s v).table + (evictStep s v).freed
      = get_current_cache_size s.table + s.freed ∧
    s.freed ≤ (evictStep s v).freed ∧
    (∀ q, lookupTable (evictStep s v).table q = lookupTable s.table q ∨
      lookupTable (evictStep s v).table q = none) ∧
    (∀ szOf, sizesConsistent szOf s.table → sizesConsistent szOf (evictStep s v).table) := by
  rcases evictStep_shape s v with heq | ⟨e, hlook, htab, hfs, hfreed, hev, -⟩ |
    ⟨e, hlook, hnc, hfsv, htab, hfs, hfreed, hev, -⟩
  · rw [heq]
    exact ⟨hn, hm, rfl, Nat.le_refl _, fun q => Or.inl rfl, fun _ h => h⟩
  · have hpt := lookup_insert_erase_self s.table v e hlook
    refine ⟨?_, ?_, ?_, ?_, ?_, ?_⟩
    · rw [htab]
      exact keysNodup_insertTable _ _ _ (keysNodup_eraseTable _ _ hn)
    · intro q
      rw [hfs, htab, hpt q]
      exact hm q
    · rw [htab, hfreed, get_current_cache_size_insert_erase_self s.table v e hn hlook]
    · rw [hfreed]
    · intro q
      rw [htab, hpt q]
      exact Or.inl rfl
    · intro szOf hsz p e' hp
      rw [htab, hpt p] at hp
      exact hsz p e' hp
  · have hcached : e.status.is_cached = true := by
      obtain ⟨e', hl', hc'⟩ := (hm v).mp hfsv
      rw [hlook] at hl'
      have hee : e = e' := by injection hl'
      rw [← hee] at hc'
      exact hc'
    have hweight : cachedWeight e = e.size := by
      unfold cachedWeight
      rw [hcached]
      rfl
    have hsum := get_current_cache_size_eraseTable s.table v e hn hlook
    refine ⟨?_, ?_, ?_, ?_, ?_, ?_⟩
    · rw [htab]
      exact keysNodup_eraseTable _ _ hn
    · intro q
      rw [hfs, htab, lookup_eraseTable]
      dsimp only
      by_cases hq : q = v
      · rw [if_pos hq, if_pos hq]
        simp
      · rw [if_neg hq, if_neg hq]
        exact hm q
    · rw [htab, hfreed]
      rw [hweight] at hsum
      omega
    · rw [hfreed]
      omega
    · intro q
      rw [htab, lookup_eraseTable]
      by_cases hq : q = v
      · rw [if_pos hq]
        exact Or.inr rfl
      · rw [if_neg hq]
        exact Or.inl rfl
    · intro szOf hsz p e' hp
      rw [htab, lookup_eraseTable] at hp
      by_cases hq : p = v
      · rw [if_pos hq] at hp
        exact absurd hp (by simp)
      · rw [if_neg hq] at hp
        exact hsz p e' hp

theorem evictLoop_inv (needed : Nat) (victims : List RPath) :
    ∀ s : EvictState, keysNodup s.table → filesMatchCached s.table s.fsFiles →
      keysNodup (evictLoop needed victims s).table ∧
      filesMatchCached (evictLoop needed victims s).table (evictLoop needed victims s).fsFiles ∧
      get_current_cache_size (evictLoop needed victims s).table + (evictLoop needed victims s).freed
        = get_current_cache_size s.table + s.freed ∧
      s.freed ≤ (evictLoop needed victims s).freed ∧
      (∀ q, lookupTable (evictLoop needed victims s).table q = lookupTable s.table q ∨
        lookupTable (evictLoop needed victims s).table q = none) ∧
      (∀ szOf, sizesConsistent szOf s.table →
        sizesConsistent szOf (evictLoop needed victims s).table) := by
  induction victims with
  | nil =>
    intro s hn hm
    exact ⟨hn, hm, rfl, Nat.le_refl _, fun q => Or.inl rfl, fun _ h => h⟩
  | cons v rest ih =>
    intro s hn hm
    obtain ⟨hn', hm', hsum', hfreed', hlook', hsz'⟩ := evictStep_inv s v hn hm
    show _ ∧ _
    rw [evictLoop]
    by_cases hbreak : needed ≤ (evictStep s v).freed
    · rw [if_pos hbreak]
      exact ⟨hn', hm', hsum', hfreed', hlook', hsz'⟩
    · rw [if_neg hbreak]
      obtain ⟨hn2, hm2, hsum2, hfreed2, hlook2, hsz2⟩ := ih (evictStep s v) hn' hm'
      refine ⟨hn2, hm2, by omega, by omega, ?_, ?_⟩
      · intro q
        rcases hlook2 q with h2 | h2
        · rcases hlook' q with h1 | h1
          · exact Or.inl (h2.trans h1)
          · exact Or.inr (h2.trans h1)
        · exact Or.inr h2
      · intro szOf hsz
        exact hsz2 szOf (hsz' szOf hsz)

theorem evictStep_untouched (s : EvictState) (v p : RPath) (hfp : s.fsFiles p = false) :
    (evictStep s v).fsFiles p = false ∧
    lookupTable (evictStep s v).table p = lookupTable s.table p ∧
    ((evictStep s v).evicted = s.evicted ∨
      ((evictStep s v).evicted = s.evicted ++ [v] ∧ v ≠ p)) := by
  rcases evictStep_shape s v with heq | ⟨e, hlook, htab, hfs, -, hev, -⟩ |
    ⟨e, hlook, -, hfsv, htab, hfs, -, hev, -⟩
  · rw [heq]
    exact ⟨hfp, rfl, Or.inl rfl⟩
  · rw [hfs, htab, lookup_insert_erase_self s.table v e hlook p, hev]
    exact ⟨hfp, rfl, Or.inl rfl⟩
  · have hvp : v ≠ p := by
      intro h
      rw [h, hfp] at hfsv
      exact Bool.noConfusion hfsv
    refine ⟨?_, ?_, Or.inr ⟨hev, hvp⟩⟩
    · rw [hfs]
      dsimp only
      rw [if_neg (fun hpv => hvp hpv.symm)]
      exact hfp
    · rw [htab, lookup_eraseTable, if_neg (fun hpv => hvp hpv.symm)]

theorem evictLoop_untouched (needed : Nat) (victims : List RPath) :
    ∀ s p, s.fsFiles p = false →
      (evictLoop needed victims s).fsFiles p = false ∧
      lookupTable (evictLoop needed victims s).table p = lookupTable s.table p ∧
      (p ∈ (evictLoop needed victims s).evicted → p ∈ s.evicted) := by
  induction victims with
  | nil =>
    intro s p h
    exact ⟨h, rfl, fun hm => hm⟩
  | cons v rest ih =>
    intro s p hfp
    obtain ⟨h1, h2, h3⟩ := evictStep_untouched s v p hfp
    rw [evictLoop]
    by_cases hbreak : needed ≤ (evictStep s v).freed
    · rw [if_pos hbreak]
      refine ⟨h1, h2, ?_⟩
      rcases h3 with h | ⟨hev, hvp⟩
      · rw [h]
        exact id
      · rw [hev]
        intro hm
        rcases List.mem_append.mp hm with h | h
        · exact h
        · simp only [List.mem_singleton] at h
          exact absurd h.symm hvp
    · rw [if_neg hbreak]
      obtain ⟨g1, g2, g3⟩ := ih (evictStep s v) p h1
      refine ⟨g1, g2.trans h2, ?_⟩
      intro hm
      have hmem := g3 hm
      rcases h3 with h | ⟨hev, hvp⟩
      · rw [h] at hmem
        exact hmem
      · rw [hev] at hmem
        rcases List.mem_append.mp hmem with h' | h'
        · exact h'
        · simp only [List.mem_singleton] at h'
          exact absurd h'.symm hvp

theorem evictStep_account (s : EvictState) (v : RPath) :
    ((evictStep s v).evicted = s.evicted ∧ (evictStep s v).freed = s.freed ∧
      ∀ q, lookupTable (evictStep s v).table q = lookupTable s.table q) ∨
    ((evictStep s v).evicted = s.evicted ++ [v] ∧
      (evictStep s v).freed
        = s.freed + (lookupTable s.table v).elim 0 (fun e => e.size) ∧
      (evictStep s v).table = eraseTable s.table v) := by
  rcases evictStep_shape s v with heq | ⟨e, hlook, htab, -, hfreed, hev, -⟩ |
    ⟨e, hlook, -, -, htab, -, hfreed, hev, -⟩
  · rw [heq]
    exact Or.inl ⟨rfl, rfl, fun q => rfl⟩
  · exact Or.inl ⟨hev, hfreed, fun q => by
      rw [htab, lookup_insert_erase_self s.table v e hlook q]⟩
  · refine Or.inr ⟨hev, ?_, htab⟩
    rw [hfreed, hlook]
    rfl

theorem evictLoop_account (needed : Nat) :
    ∀ (victims : List RPath) (s : EvictState), victims.Nodup →
      ∃ delta, (evictLoop needed victims s).evicted = s.evicted ++ delta ∧
        (∀ q ∈ delta, q ∈ victims) ∧
        (evictLoop needed victims s).freed
          = s.freed +
            (delta.map (fun q => (lookupTable s.table q).elim 0 (fun e => e.size))).sum := by
  intro victims
  induction victims with
  | nil =>
    intro s _
    exact ⟨[], by simp [evictLoop], by simp, by simp [evictLoop]⟩
  | cons v rest ih =>
    intro s hnd
    rw [List.nodup_cons] at hnd
    rw [evictLoop]
    by_cases hbreak : needed ≤ (evictStep s v).freed
    · rw [if_pos hbreak]
      rcases evictStep_account s v with ⟨hev, hfr, -⟩ | ⟨hev, hfr, -⟩
      · exact ⟨[], by simp [hev], by simp, by simp [hfr]⟩
      · refine ⟨[v], by simp [hev], by simp, ?_⟩
        simp [hfr]
    · rw [if_neg hbreak]
      obtain ⟨delta, hev2, hsub2, hfr2⟩ := ih (evictStep s v) hnd.2
      rcases evictStep_account s v with ⟨hev, hfr, hpt⟩ | ⟨hev, hfr, htab⟩
      · refine ⟨delta, by rw [hev2, hev],
          fun q hq => List.mem_cons_of_mem _ (hsub2 q hq), ?_⟩
        rw [hfr2, hfr]
        have hmapeq : delta.map (fun q => (lookupTable (evictStep s v).table q).elim 0
              (fun e => e.size))
            = delta.map (fun q => (lookupTable s.table q).elim 0 (fun e => e.size)) :=
          List.map_congr_left (fun q _ => by rw [hpt q])
        rw [hmapeq]
      · refine ⟨v :: delta, ?_, ?_, ?_⟩
        · rw [hev2, hev, List.append_assoc]
          rfl
        · intro q hq
          rcases List.mem_cons.mp hq with h | h
          · exact h ▸ List.mem_cons_self v rest
          · exact List.mem_cons_of_mem _ (hsub2 q h)
        · rw [hfr2, hfr]
          have hmapeq : delta.map (fun q => (lookupTable (evictStep s v).table q).elim 0
                (fun e => e.size))
              = delta.map (fun q => (lookupTable s.table q).elim 0 (fun e => e.size)) := by
            refine List.map_congr_left (fun q hq => ?_)
            have hqv : ¬ q = v := fun h => hnd.1 (h ▸ hsub2 q hq)
            rw [htab, lookup_eraseTable, if_neg hqv]
          rw [hmapeq]
          simp only [List.map_cons, List.sum_cons]
          omega

/-- Claim C10: during `evict_files`, a victim whose local file deletion
fails (its file is absent) is re-inserted unchanged, contributes nothing to
the freed-bytes total, and is not reported to the eviction policy's
`on_remove` hook; a victim is permanently dropped from the table only when
its file deletion succeeded. -/
theorem c10_evict_failure_semantics (t : Table) (fs : RPath → Bool)
    (victims : List RPath) (needed : Nat) :
    (∀ p, fs p = false →
      lookupTable (evict_files t fs victims needed).table p = lookupTable t p ∧
      p ∉ (evict_files t fs victims needed).evicted) ∧
    (∀ p e, lookupTable t p = some e →
      lookupTable (evict_files t fs victims needed).table p = none → fs p = true) ∧
    (victims.Nodup →
      (evict_files t fs victims needed).freed
        = ((evict_files t fs victims needed).evicted.map
            (fun q => (lookupTable t q).elim 0 (fun e => e.size))).sum) := by
  refine ⟨?_, ?_, ?_⟩
  · intro p hfp
    obtain ⟨-, h2, h3⟩ := evictLoop_untouched needed victims
      { table := t, fsFiles := fs, freed := 0, evicted := [], events := [] } p hfp
    exact ⟨h2, fun hmem => by simpa using h3 hmem⟩
  · intro p e hsome hnone
    by_cases hfp : fs p = true
    · exact hfp
    · obtain ⟨-, h2, -⟩ := evictLoop_untouched needed victims
        { table := t, fsFiles := fs, freed := 0, evicted := [], events := [] } p
        (by simpa using hfp)
      rw [evict_files] at hnone
      rw [hnone] at h2
      rw [hsome] at h2
      exact Option.noConfusion h2
  · intro hnd
    obtain ⟨delta, hev, -, hfr⟩ := evictLoop_account needed victims
      { table := t, fsFiles := fs, freed := 0, evicted := [], events := [] } hnd
    rw [evict_files, hfr, hev]
    simp

/-- Witness for C10 at a concrete run: one victim with its file present is
evicted and accounted, one with its file absent is left untouched. -/
theorem c10_evict_failure_semantics_witness :
    lookupTable (evict_files
        [(⟨true, ["cache", "a"]⟩, { (CacheEntry.new 2 0) with status := .cached 0 0 2 }),
         (⟨true, ["cache", "b"]⟩, { (CacheEntry.new 3 0) with status := .cached 0 0 3 })]
        (fun q => decide (q = ⟨true, ["cache", "a"]⟩))
        [⟨true, ["cache", "a"]⟩, ⟨true, ["cache", "b"]⟩] 5).table ⟨true, ["cache", "b"]⟩
      = some { (CacheEntry.new 3 0) with status := .cached 0 0 3 } ∧
    (⟨true, ["cache", "b"]⟩ : RPath) ∉ (evict_files
        [(⟨true, ["cache", "a"]⟩, { (CacheEntry.new 2 0) with status := .cached 0 0 2 }),
         (⟨true, ["cache", "b"]⟩, { (CacheEntry.new 3 0) with status := .cached 0 0 3 })]
        (fun q => decide (q = ⟨true, ["cache", "a"]⟩))
        [⟨true, ["cache", "a"]⟩, ⟨true, ["cache", "b"]⟩] 5).evicted ∧
    (evict_files
        [(⟨true, ["cache", "a"]⟩, { (CacheEntry.new 2 0) with status := .cached 0 0 2 }),
         (⟨true, ["cache", "b"]⟩, { (CacheEntry.new 3 0) with status := .cached 0 0 3 })]
        (fun q => decide (q = ⟨true, ["cache", "a"]⟩))
        [⟨true, ["cache", "a"]⟩, ⟨true, ["cache", "b"]⟩] 5).freed
      = ((evict_files
        [(⟨true, ["cache", "a"]⟩, { (CacheEntry.new 2 0) with status := .cached 0 0 2 }),
         (⟨true, ["cache", "b"]⟩, { (CacheEntry.new 3 0) with status := .cached 0 0 3 })]
        (fun q => decide (q = ⟨true, ["cache", "a"]⟩))
        [⟨true, ["cache", "a"]⟩, ⟨true, ["cache", "b"]⟩] 5).evicted.map
          (fun q => (lookupTable
            [(⟨true, ["cache", "a"]⟩, { (CacheEntry.new 2 0) with status := .cached 0 0 2 }),
             (⟨true, ["cache", "b"]⟩, { (CacheEntry.new 3 0) with status := .cached 0 0 3 })] q).elim 0
            (fun e => e.size))).sum := by
  have h := c10_evict_failure_semantics
    [(⟨true, ["cache", "a"]⟩, { (CacheEntry.new 2 0) with status := .cached 0 0 2 }),
     (⟨true, ["cache", "b"]⟩, { (CacheEntry.new 3 0) with status := .cached 0 0 3 })]
    (fun q => decide (q = ⟨true, ["cache", "a"]⟩))
    [⟨true, ["cache", "a"]⟩, ⟨true, ["cache", "b"]⟩] 5
  obtain ⟨huntouched, hb⟩ := h.1 ⟨true, ["cache", "b"]⟩ (by decide)
  refine ⟨?_, hb, h.2.2 (by decide)⟩
  rw [huntouched]
  decide

/-! ## Claim C5: deletion order in eviction and cleanup -/

theorem evictStep_events (s : EvictState) (v : RPath) :
    ∃ blk, (evictStep s v).events = s.events ++ blk ∧
      ∀ p, p ∈ (evictStep s v).evicted →
        p ∈ s.evicted ∨
          List.Sublist [FsEvent.entryRemoved p, FsEvent.fileRemoved p] blk := by
  rcases evictStep_shape s v with heq | ⟨e, hlook, -, -, -, hev, blk, hevs, -⟩ |
    ⟨e, hlook, -, -, -, -, -, hev, hevs⟩
  · rw [heq]
    exact ⟨[], by simp, fun p h => Or.inl h⟩
  · refine ⟨blk, hevs, fun p h => Or.inl ?_⟩
    rw [hev] at h
    exact h
  · refine ⟨[.entryRemoved v, .fileRemoved v], hevs, fun p h => ?_⟩
    rw [hev] at h
    rcases List.mem_append.mp h with h' | h'
    · exact Or.inl h'
    · simp only [List.mem_singleton] at h'
      subst h'
      exact Or.inr (List.Sublist.refl _)

theorem evictLoop_events (needed : Nat) :
    ∀ (victims : List RPath) (s : EvictState),
      ∃ delta, (evictLoop needed victims s).events = s.events ++ delta ∧
        ∀ p, p ∈ (evictLoop needed victims s).evicted →
          p ∈ s.evicted ∨
            List.Sublist [FsEvent.entryRemoved p, FsEvent.fileRemoved p] delta := by
  intro victims
  induction victims with
  | nil =>
    intro s
    exact ⟨[], by simp [evictLoop], fun p h => Or.inl h⟩
  | cons v rest ih =>
    intro s
    obtain ⟨blk, hevs, hstep⟩ := evictStep_events s v
    rw [evictLoop]
    by_cases hbreak : needed ≤ (evictStep s v).freed
    · rw [if_pos hbreak]
      exact ⟨blk, hevs, hstep⟩
    · rw [if_neg hbreak]
      obtain ⟨delta, hevs2, hrec⟩ := ih (evictStep s v)
      refine ⟨blk ++ delta, by rw [hevs2, hevs, List.append_assoc], fun p h => ?_⟩
      rcases hrec p h with h' | h'
      · rcases hstep p h' with h'' | h''
        · exact Or.inl h''
        · exact Or.inr (h''.trans (List.sublist_append_left blk delta))
      · exact Or.inr (h'.trans (List.sublist_append_right blk delta))

/-! ## The cache manager state and `cleanup_expired_cache`

`MgrState` couples the entry table with the set of cache files present on
local storage (`fsFiles`); file deletion succeeds exactly on a present
file, and the worker's atomic rename creates the destination file. -/

structure MgrState where
  table : Table
  fsFiles : RPath → Bool

/-- Expired paths collected by `cleanup_expired_cache` (src/cache/manager.rs
lines 1034-1042): cached entries whose age since `cached_at` exceeds the
TTL (`duration_since` succeeds only when the clock did not go backwards). -/
def expiredPaths (ttl : Nat) (t : Table) (now : Nat) : List RPath :=
  (t.filter (fun pe =>
    match pe.2.status with
    | .cached cached_at _ _ => decide (cached_at ≤ now) && decide (ttl < now - cached_at)
    | _ => false)).map Prod.fst

/-- The removal loop of `cleanup_expired_cache` (lines 1044-1053): remove
the entry, then delete the file; on deletion failure only warn (the entry
stays removed and the policy is not notified), on success notify
`on_remove`. -/
def cleanupLoop : List RPath → MgrState → List FsEvent → List RPath →
    MgrState × List FsEvent × List RPath
  | [], st, evs, removed => (st, evs, removed)
  | p :: rest, st, evs, removed =>
    match lookupTable st.table p with
    | none => cleanupLoop rest st evs removed
    | some _ =>
      if st.fsFiles p then
        cleanupLoop rest
          ⟨eraseTable st.table p, fun q => if q = p then false else st.fsFiles q⟩
          (evs ++ [.entryRemoved p, .fileRemoved p]) (removed ++ [p])
      else
        cleanupLoop rest ⟨eraseTable st.table p, st.fsFiles⟩
          (evs ++ [.entryRemoved p, .fileRemoveFailed p]) removed

/-- Model of `CacheManager::cleanup_expired_cache` (src/cache/manager.rs
lines 1029-1057); returns the new state, the event trace, and the list of
paths reported to the eviction policy's `on_remove`. -/
def cleanup_expired_cache (cfg : Config) (st : MgrState) (now : Nat) :
    MgrState × List FsEvent × List RPath :=
  match cfg.cache_ttl_seconds with
  | none => (st, [], [])
  | some ttl => cleanupLoop (expiredPaths ttl st.table now) st [] []

theorem cleanupLoop_events :
    ∀ (paths : List RPath) (st : MgrState) (evs : List FsEvent) (removed : List RPath),
      ∃ delta, (cleanupLoop paths st evs removed).2.1 = evs ++ delta ∧
        ∀ p, p ∈ (cleanupLoop paths st evs removed).2.2 →
          p ∈ removed ∨
            List.Sublist [FsEvent.entryRemoved p, FsEvent.fileRemoved p] delta := by
  intro paths
  induction paths with
  | nil =>
    intro st evs removed
    exact ⟨[], by simp [cleanupLoop], fun p h => Or.inl h⟩
  | cons q rest ih =>
    intro st evs removed
    rw [cleanupLoop]
    cases hl : lookupTable st.table q with
    | none => exact ih st evs removed
    | some e =>
      dsimp only
      by_cases hf : st.fsFiles q
      · rw [if_pos hf]
        obtain ⟨delta, hevs, hrec⟩ := ih
          ⟨eraseTable st.table q, fun r => if r = q then false else st.fsFiles r⟩
          (evs ++ [.entryRemoved q, .fileRemoved q]) (removed ++ [q])
        refine ⟨[.entryRemoved q, .fileRemoved q] ++ delta,
          by rw [hevs, List.append_assoc], fun p h => ?_⟩
        rcases hrec p h with h' | h'
        · rcases List.mem_append.mp h' with h'' | h''
          · exact Or.inl h''
          · simp only [List.mem_singleton] at h''
            subst h''
            exact Or.inr ((List.Sublist.refl _).trans
              (List.sublist_append_left _ delta))
        · exact Or.inr (h'.trans (List.sublist_append_right _ delta))
      · rw [if_neg hf]
        obtain ⟨delta, hevs, hrec⟩ := ih ⟨eraseTable st.table q, st.fsFiles⟩
          (evs ++ [.entryRemoved q, .fileRemoveFailed q]) removed
        refine ⟨[.entryRemoved q, .fileRemoveFailed q] ++ delta,
          by rw [hevs, List.append_assoc], fun p h => ?_⟩
        rcases hrec p h with h' | h'
        · exact Or.inl h'
        · exact Or.inr (h'.trans (List.sublist_append_right _ delta))

/-- Counterexample to claim C5: cleaning up a single expired cached entry
emits `entryRemoved` strictly before `fileRemoved` — the table entry is
removed first and the local file second, not the claimed file-first order.
The same order is emitted by eviction (`evictStep`). -/
theorem c5_delete_order_cex :
    (cleanup_expired_cache
        { nfs_backend_path := ⟨true, ["nfs"]⟩, cache_dir := ⟨true, ["cache"]⟩,
          max_cache_size_bytes := 100, cache_ttl_seconds := some 60,
          enable_checksums := false }
        ⟨[(⟨true, ["cache", "p"]⟩, { (CacheEntry.new 1 0) with status := .cached 0 0 1 })],
         fun q => decide (q = ⟨true, ["cache", "p"]⟩)⟩ 61).2.1
      = [.entryRemoved ⟨true, ["cache", "p"]⟩, .fileRemoved ⟨true, ["cache", "p"]⟩] ∧
    lookupTable (cleanup_expired_cache
        { nfs_backend_path := ⟨true, ["nfs"]⟩, cache_dir := ⟨true, ["cache"]⟩,
          max_cache_size_bytes := 100, cache_ttl_seconds := some 60,
          enable_checksums := false }
        ⟨[(⟨true, ["cache", "p"]⟩, { (CacheEntry.new 1 0) with status := .cached 0 0 1 })],
         fun q => decide (q = ⟨true, ["cache", "p"]⟩)⟩ 61).1.table
        ⟨true, ["cache", "p"]⟩ = none ∧
    ¬ List.Sublist
        [FsEvent.fileRemoved ⟨true, ["cache", "p"]⟩,
         FsEvent.entryRemoved ⟨true, ["cache", "p"]⟩]
        (cleanup_expired_cache
          { nfs_backend_path := ⟨true, ["nfs"]⟩, cache_dir := ⟨true, ["cache"]⟩,
            max_cache_size_bytes := 100, cache_ttl_seconds := some 60,
            enable_checksums := false }
          ⟨[(⟨true, ["cache", "p"]⟩, { (CacheEntry.new 1 0) with status := .cached 0 0 1 })],
           fun q => decide (q = ⟨true, ["cache", "p"]⟩)⟩ 61).2.1 := by
  refine ⟨by decide, by decide, by decide⟩

/-- Claim C5, amended: whenever eviction or cleanup-expired deletes an
entry together with its local cache file, the table entry is removed first
and the local file second — the reverse of the order the claim states. The
quantification is over the paths each operation reports to the policy's
`on_remove` hook, which are the ones whose file removal succeeded. -/
theorem c5_delete_order (t : Table) (fs : RPath → Bool) (victims : List RPath)
    (needed : Nat) (cfg : Config) (st : MgrState) (now : Nat) :
    (∀ p, p ∈ (evict_files t fs victims needed).evicted →
      List.Sublist [FsEvent.entryRemoved p, FsEvent.fileRemoved p]
        (evict_files t fs victims needed).events) ∧
    (∀ p, p ∈ (cleanup_expired_cache cfg st now).2.2 →
      List.Sublist [FsEvent.entryRemoved p, FsEvent.fileRemoved p]
        (cleanup_expired_cache cfg st now).2.1) := by
  constructor
  · intro p hp
    obtain ⟨delta, hevs, hrec⟩ := evictLoop_events needed victims
      { table := t, fsFiles := fs, freed := 0, evicted := [], events := [] }
    rcases hrec p hp with h | h
    · exact absurd h (by simp)
    · rw [evict_files, hevs]
      simpa using h
  · intro p hp
    unfold cleanup_expired_cache at hp ⊢
    cases httl : cfg.cache_ttl_seconds with
    | none =>
      rw [httl] at hp
      dsimp only at hp
      exact absurd hp (by simp)
    | some ttl =>
      rw [httl] at hp
      dsimp only at hp ⊢
      obtain ⟨delta, hevs, hrec⟩ := cleanupLoop_events (expiredPaths ttl st.table now) st [] []
      rcases hrec p hp with h | h
      · exact absurd h (by simp)
      · rw [hevs]
        simpa using h

/-- Witness for the amended C5 at the concrete cleanup run of the
counterexample state: the deleted path's entry-removal precedes its
file-removal in the trace. -/
theorem c5_delete_order_witness :
    List.Sublist
      [FsEvent.entryRemoved ⟨true, ["cache", "p"]⟩,
       FsEvent.fileRemoved ⟨true, ["cache", "p"]⟩]
      (cleanup_expired_cache
        { nfs_backend_path := ⟨true, ["nfs"]⟩, cache_dir := ⟨true, ["cache"]⟩,
          max_cache_size_bytes := 100, cache_ttl_seconds := some 60,
          enable_checksums := false }
        ⟨[(⟨true, ["cache", "p"]⟩, { (CacheEntry.new 1 0) with status := .cached 0 0 1 })],
         fun q => decide (q = ⟨true, ["cache", "p"]⟩)⟩ 61).2.1 :=
  (c5_delete_order [] (fun _ => false) [] 0
    { nfs_backend_path := ⟨true, ["nfs"]⟩, cache_dir := ⟨true, ["cache"]⟩,
      max_cache_size_bytes := 100, cache_ttl_seconds := some 60,
      enable_checksums := false }
    ⟨[(⟨true, ["cache", "p"]⟩, { (CacheEntry.new 1 0) with status := .cached 0 0 1 })],
     fun q => decide (q = ⟨true, ["cache", "p"]⟩)⟩ 61).2
    ⟨true, ["cache", "p"]⟩ (by decide)

/-! ## `submit_cache_task` and the promotion pipeline
(src/cache/manager.rs lines 156-260)

The task queue is unbounded and the dispatcher always accepts while the
manager is running, so enqueueing is modelled as always succeeding; the
eviction policy's `on_insert`/`on_remove` bookkeeping does not feed back
into any verified claim and is not part of the state. The policy's
comparator and pin-set are carried as parameters (`rank`, `prot`). -/

/-- Model of the `CacheFsError` variants reachable from `submit_cache_task`. -/
inductive CacheFsError where
  | ioError
  | insufficientSpace
  | cacheError (msg : String)
  deriving DecidableEq, Repr

/-- Model of `CacheManager::ensure_cache_space` (lines 247-260): succeed
outright when the free headroom under the ceiling covers the request,
otherwise evict for the deficit; the Bool is whether the space was secured
(`evict_files` returns `InsufficientSpace` exactly when its freed total
stays below the deficit, lines 320-325). -/
def ensure_cache_space (cfg : Config)
    (rank : RPath × CacheEntry → RPath × CacheEntry → Ordering)
    (prot : List RPath) (st : MgrState) (needed : Nat) : MgrState × Bool :=
  let current := get_current_cache_size st.table
  let available := cfg.max_cache_size_bytes - current
  if needed ≤ available then (st, true)
  else
    let space_to_free := needed - available
    let r := evict_files st.table st.fsFiles
      (select_victims rank prot st.table space_to_free) space_to_free
    (⟨r.table, r.fsFiles⟩, decide (space_to_free ≤ r.freed))

/-- Result of one `submit_cache_task` call: the new manager state, the
returned result, whether `ensure_cache_space` was invoked, and the tasks
pushed onto the worker queue. -/
structure SubmitOutcome where
  state : MgrState
  result : Except CacheFsError Unit
  ensure_called : Bool
  enqueued : List CacheTask

/-- The tail of `submit_cache_task` after the inspect-or-insert step
(lines 203-243): ensure space (removing the entry and propagating on
failure), re-assert the caching status, build the task and enqueue it. -/
def submitAfterEntry (cfg : Config)
    (rank : RPath × CacheEntry → RPath × CacheEntry → Ordering)
    (prot : List RPath) (st : MgrState) (nfs_path cache_path : RPath)
    (prio : CachePriority) (file_size now : Nat) : SubmitOutcome :=
  let r := ensure_cache_space cfg rank prot st file_size
  if r.2 then
    match lookupTable r.1.table cache_path with
    | some e₂ =>
      let e₃ := if e₂.status.is_caching then e₂ else e₂.start_caching file_size now
      { state := ⟨insertTable r.1.table cache_path e₃, r.1.fsFiles⟩
        result := .ok ()
        ensure_called := true
        enqueued := [((((CacheTask.new nfs_path cache_path now).with_priority
          prio).with_checksum cfg.enable_checksums).with_file_size
            file_size).with_max_retries 3] }
    | none =>
      { state := r.1
        result := .error (.cacheError "Cache entry disappeared unexpectedly")
        ensure_called := true
        enqueued := [] }
  else
    { state := ⟨eraseTable r.1.table cache_path, r.1.fsFiles⟩
      result := .error .insufficientSpace
      ensure_called := true
      enqueued := [] }

/-- Model of `CacheManager::submit_cache_task` (lines 156-244). The
`stat_result` parameter is the outcome of `tokio::fs::metadata(&nfs_path)`
(the declared file size on success). -/
def submit_cache_task (cfg : Config)
    (rank : RPath × CacheEntry → RPath × CacheEntry → Ordering)
    (prot : List RPath) (st : MgrState) (nfs_path : RPath)
    (prio : CachePriority) (stat_result : Except Unit Nat) (now : Nat) : SubmitOutcome :=
  let cache_path := getCachePath cfg nfs_path
  match stat_result with
  | .error _ => { state := st, result := .error .ioError, ensure_called := false, enqueued := [] }
  | .ok file_size =>
    match lookupTable st.table cache_path with
    | some e =>
      match e.status with
      | .cached _ _ _ =>
        { state := st, result := .ok (), ensure_called := false, enqueued := [] }
      | .cachingInProgress _ _ _ =>
        { state := st, result := .ok (), ensure_called := false, enqueued := [] }
      | _ => submitAfterEntry cfg rank prot st nfs_path cache_path prio file_size now
    | none =>
      submitAfterEntry cfg rank prot
        ⟨insertTable st.table cache_path
          (((CacheEntry.new file_size now).with_priority prio).start_caching file_size now),
         st.fsFiles⟩
        nfs_path cache_path prio file_size now

/-- A worker attempt that reaches step 7: the fsynced temp file is
atomically renamed onto the destination (creating the cache file) and the
entry is flipped to cached (lines 514-548). -/
def completeWorker (st : MgrState) (cache_path : RPath) (file_size : Nat)
    (checksum : Option String) (now : Nat) : MgrState :=
  let fs' := fun q => if q = cache_path then true else st.fsFiles q
  match lookupTable st.table cache_path with
  | some e => ⟨insertTable st.table cache_path (e.complete_caching file_size checksum now), fs'⟩
  | none => ⟨st.table, fs'⟩

/-- A worker whose promotion fails terminally: the entry is marked failed,
the temp file is cleaned up and no destination file appears (lines 579-592). -/
def failWorker (st : MgrState) (cache_path : RPath) (msg : String)
    (retries now : Nat) : MgrState :=
  match lookupTable st.table cache_path with
  | some e => ⟨insertTable st.table cache_path (e.mark_failed msg retries now), st.fsFiles⟩
  | none => st

/-- One sequential promotion: a submission whose enqueued task (if any) is
run to its terminal state before anything else happens. `succeeds` is the
worker's outcome. -/
structure PromoteStep where
  src : RPath
  prio : CachePriority
  succeeds : Bool
  now : Nat

def promoteSeq (cfg : Config)
    (rank : RPath × CacheEntry → RPath × CacheEntry → Ordering)
    (prot : List RPath) (szOf : RPath → Nat) (st : MgrState)
    (stp : PromoteStep) : MgrState :=
  let out := submit_cache_task cfg rank prot st stp.src stp.prio
    (.ok (szOf (getCachePath cfg stp.src))) stp.now
  match out.enqueued with
  | [] => out.state
  | task :: _ =>
    if stp.succeeds then
      completeWorker out.state task.cache_path (task.file_size.getD 0) none stp.now
    else
      failWorker out.state task.cache_path "copy failed" task.max_retries stp.now

def runSeq (cfg : Config)
    (rank : RPath × CacheEntry → RPath × CacheEntry → Ordering)
    (prot : List RPath) (szOf : RPath → Nat) :
    List PromoteStep → MgrState → MgrState
  | [], st => st
  | stp :: rest, st => runSeq cfg rank prot szOf rest (promoteSeq cfg rank prot szOf st stp)

/-- The manager's initial state: empty table, no cache files on disk. -/
def initState : MgrState := ⟨[], fun _ => false⟩

/-- The admission-time safety invariant of claim C2, strengthened with the
bookkeeping that makes it inductive: unique keys, the file/status coupling,
and per-destination-stable declared sizes. -/
def MgrInv (cfg : Config) (szOf : RPath → Nat) (st : MgrState) : Prop :=
  keysNodup st.table ∧ filesMatchCached st.table st.fsFiles ∧
    sizesConsistent szOf st.table ∧
    get_current_cache_size st.table ≤ cfg.max_cache_size_bytes

theorem get_current_cache_size_eraseTable_le (t : Table) (p : RPath) :
    get_current_cache_size (eraseTable t p) ≤ get_current_cache_size t := by
  induction t with
  | nil => exact Nat.le_refl _
  | cons ke t ih =>
    obtain ⟨k, e⟩ := ke
    simp only [eraseTable]
    by_cases hkp : k = p
    · rw [if_pos hkp, get_current_cache_size_cons]
      omega
    · rw [if_neg hkp, get_current_cache_size_cons, get_current_cache_size_cons]
      omega

theorem ensure_cache_space_inv (cfg : Config)
    (rank : RPath × CacheEntry → RPath × CacheEntry → Ordering)
    (prot : List RPath) (st : MgrState) (needed : Nat)
    (hn : keysNodup st.table) (hm : filesMatchCached st.table st.fsFiles) :
    keysNodup (ensure_cache_space cfg rank prot st needed).1.table ∧
    filesMatchCached (ensure_cache_space cfg rank prot st needed).1.table
      (ensure_cache_space cfg rank prot st needed).1.fsFiles ∧
    (∀ szOf, sizesConsistent szOf st.table →
      sizesConsistent szOf (ensure_cache_space cfg rank prot st needed).1.table) ∧
    get_current_cache_size (ensure_cache_space cfg rank prot st needed).1.table
      ≤ get_current_cache_size st.table ∧
    (∀ q, lookupTable (ensure_cache_space cfg rank prot st needed).1.table q
        = lookupTable st.table q ∨
      lookupTable (ensure_cache_space cfg rank prot st needed).1.table q = none) ∧
    (get_current_cache_size st.table ≤ cfg.max_cache_size_bytes →
      (ensure_cache_space cfg rank prot st needed).2 = true →
      get_current_cache_size (ensure_cache_space cfg rank prot st needed).1.table + needed
        ≤ cfg.max_cache_size_bytes) := by
  unfold ensure_cache_space
  by_cases hav : needed ≤ cfg.max_cache_size_bytes - get_current_cache_size st.table
  · rw [if_pos hav]
    dsimp only
    exact ⟨hn, hm, fun _ h => h, Nat.le_refl _, fun q => Or.inl rfl,
      fun hI1 _ => by omega⟩
  · rw [if_neg hav]
    dsimp only [evict_files]
    obtain ⟨hn', hm', hsum', hfreed', hlook', hsz'⟩ :=
      evictLoop_inv (needed - (cfg.max_cache_size_bytes - get_current_cache_size st.table))
        (select_victims rank prot st.table
          (needed - (cfg.max_cache_size_bytes - get_current_cache_size st.table)))
        { table := st.table, fsFiles := st.fsFiles, freed := 0, evicted := [], events := [] }
        hn hm
    dsimp only at hn' hm' hsum' hfreed' hlook' hsz'
    refine ⟨hn', hm', fun szOf h => hsz' szOf h, by omega, hlook', ?_⟩
    intro hI1 hok
    rw [decide_eq_true_eq] at hok
    omega

theorem is_cached_false_of_is_caching (s : CacheStatus) (h : s.is_caching = true) :
    s.is_cached = false := by
  cases s <;> simp [CacheStatus.is_caching, CacheStatus.is_cached] at *

theorem submitAfterEntry_spec (cfg : Config)
    (rank : RPath × CacheEntry → RPath × CacheEntry → Ordering)
    (prot : List RPath) (st : MgrState) (nfs_path cache_path : RPath)
    (prio : CachePriority) (file_size now : Nat) (szOf : RPath → Nat)
    (hn : keysNodup st.table) (hm : filesMatchCached st.table st.fsFiles)
    (hsz : sizesConsistent szOf st.table)
    (hI1 : get_current_cache_size st.table ≤ cfg.max_cache_size_bytes)
    (hszp : file_size = szOf cache_path)
    (hnc : ∀ e, lookupTable st.table cache_path = some e → e.status.is_cached = false) :
    ((submitAfterEntry cfg rank prot st nfs_path cache_path prio file_size now).enqueued = [] →
      MgrInv cfg szOf (submitAfterEntry cfg rank prot st nfs_path cache_path prio file_size now).state) ∧
    (∀ task rest,
      (submitAfterEntry cfg rank prot st nfs_path cache_path prio file_size now).enqueued
        = task :: rest →
      rest = [] ∧ task.cache_path = cache_path ∧ task.file_size = some file_size ∧
      task.max_retries = 3 ∧
      keysNodup (submitAfterEntry cfg rank prot st nfs_path cache_path prio file_size now).state.table ∧
      filesMatchCached
        (submitAfterEntry cfg rank prot st nfs_path cache_path prio file_size now).state.table
        (submitAfterEntry cfg rank prot st nfs_path cache_path prio file_size now).state.fsFiles ∧
      sizesConsistent szOf
        (submitAfterEntry cfg rank prot st nfs_path cache_path prio file_size now).state.table ∧
      get_current_cache_size
        (submitAfterEntry cfg rank prot st nfs_path cache_path prio file_size now).state.table
          + file_size ≤ cfg.max_cache_size_bytes ∧
      ∃ e, lookupTable
          (submitAfterEntry cfg rank prot st nfs_path cache_path prio file_size now).state.table
          cache_path = some e ∧
        e.status.is_caching = true ∧ e.size = szOf cache_path) := by
  obtain ⟨hn', hm', hszpres, hle, hlook', hbound⟩ :=
    ensure_cache_space_inv cfg rank prot st file_size hn hm
  have hsz' := hszpres szOf hsz
  unfold submitAfterEntry
  by_cases hok : (ensure_cache_space cfg rank prot st file_size).2 = true
  · rw [if_pos hok]
    cases hl2 : lookupTable (ensure_cache_space cfg rank prot st file_size).1.table cache_path with
    | some e₂ =>
      dsimp only
      have hstlook : lookupTable st.table cache_path = some e₂ := by
        rcases hlook' cache_path with h | h
        · rw [hl2] at h
          exact h.symm
        · rw [hl2] at h
          exact Option.noConfusion h
      have hcached2 : e₂.status.is_cached = false := hnc e₂ hstlook
      have hsize2 : e₂.size = szOf cache_path := hsz' cache_path e₂ hl2
      have he₃c :
          (if e₂.status.is_caching then e₂ else e₂.start_caching file_size now).status.is_caching
            = true := by
        by_cases h : e₂.status.is_caching = true
        · rw [if_pos h]
          exact h
        · rw [if_neg h]
          rfl
      have he₃size :
          (if e₂.status.is_caching then e₂ else e₂.start_caching file_size now).size
            = szOf cache_path := by
        by_cases h : e₂.status.is_caching = true
        · rw [if_pos h]
          exact hsize2
        · rw [if_neg h]
          exact hsize2
      have he₃notcached :
          (if e₂.status.is_caching then e₂ else e₂.start_caching file_size now).status.is_cached
            = false := is_cached_false_of_is_caching _ he₃c
      have hfsp : (ensure_cache_space cfg rank prot st file_size).1.fsFiles cache_path = false := by
        rcases hfs : (ensure_cache_space cfg rank prot st file_size).1.fsFiles cache_path with _ | _
        · rfl
        · obtain ⟨e', hl', hc'⟩ := (hm' cache_path).mp hfs
          rw [hl2] at hl'
          have : e₂ = e' := by injection hl'
          rw [← this] at hc'
          rw [hcached2] at hc'
          exact Bool.noConfusion hc'
      have hweight2 : cachedWeight e₂ = 0 := by
        unfold cachedWeight
        rw [hcached2]
        rfl
      have hcb2 := get_current_cache_size_eraseTable
        (ensure_cache_space cfg rank prot st file_size).1.table cache_path e₂ hn' hl2
      constructor
      · intro hemp
        exact absurd hemp (by simp)
      · intro task rest htask
        have htask' : task = ((((CacheTask.new nfs_path cache_path now).with_priority
            prio).with_checksum cfg.enable_checksums).with_file_size
              file_size).with_max_retries 3 ∧ rest = ([] : List CacheTask) := by
          have h := List.cons_eq_cons.mp htask
          exact ⟨h.1.symm, h.2.symm⟩
        obtain ⟨rfl, rfl⟩ := htask'
        refine ⟨rfl, rfl, rfl, rfl, ?_, ?_, ?_, ?_, ?_⟩
        · exact keysNodup_insertTable _ _ _ hn'
        · intro q
          rw [lookup_insertTable]
          by_cases hq : q = cache_path
          · rw [if_pos hq, hq, hfsp]
            simp [he₃notcached]
          · rw [if_neg hq]
            exact hm' q
        · intro q e hq
          rw [lookup_insertTable] at hq
          by_cases hqp : q = cache_path
          · rw [if_pos hqp] at hq
            have : (if e₂.status.is_caching then e₂ else e₂.start_caching file_size now) = e := by
              injection hq
            rw [← this, he₃size, hqp]
          · rw [if_neg hqp] at hq
            exact hsz' q e hq
        · rw [get_current_cache_size_insertTable]
          have hw3 : cachedWeight
              (if e₂.status.is_caching then e₂ else e₂.start_caching file_size now) = 0 := by
            unfold cachedWeight
            rw [he₃notcached]
            rfl
          have hb := hbound hI1 hok
          rw [hw3]
          omega
        · refine ⟨if e₂.status.is_caching then e₂ else e₂.start_caching file_size now, ?_,
            he₃c, he₃size⟩
          rw [lookup_insertTable, if_pos rfl]
    | none =>
      dsimp only
      constructor
      · intro _
        exact ⟨hn', hm', hsz', by omega⟩
      · intro task rest htask
        exact absurd htask (by simp)
  · rw [if_neg hok]
    dsimp only
    have hfsp2 : (ensure_cache_space cfg rank prot st file_size).1.fsFiles cache_path = false := by
      rcases hfs : (ensure_cache_space cfg rank prot st file_size).1.fsFiles cache_path with _ | _
      · rfl
      · obtain ⟨e', hl', hc'⟩ := (hm' cache_path).mp hfs
        rcases hlook' cache_path with h | h
        · rw [hl'] at h
          have := hnc e' h.symm
          rw [this] at hc'
          exact Bool.noConfusion hc'
        · rw [hl'] at h
          exact Option.noConfusion h
    constructor
    · intro _
      refine ⟨keysNodup_eraseTable _ _ hn', ?_, ?_, ?_⟩
      · intro q
        rw [lookup_eraseTable]
        by_cases hq : q = cache_path
        · rw [if_pos hq, hq, hfsp2]
          simp
        · rw [if_neg hq]
          exact hm' q
      · intro q e hq
        rw [lookup_eraseTable] at hq
        by_cases hq' : q = cache_path
        · rw [if_pos hq'] at hq
          exact Option.noConfusion hq
        · rw [if_neg hq'] at hq
          exact hsz' q e hq
      · dsimp only
        have := get_current_cache_size_eraseTable_le
          (ensure_cache_space cfg rank prot st file_size).1.table cache_path
        omega
    · intro task rest htask
      exact absurd htask (by simp)

theorem submit_spec (cfg : Config)
    (rank : RPath × CacheEntry → RPath × CacheEntry → Ordering)
    (prot : List RPath) (st : MgrState) (src : RPath) (prio : CachePriority)
    (now : Nat) (szOf : RPath → Nat) (hInv : MgrInv cfg szOf st)
    (out : SubmitOutcome)
    (hout : out = submit_cache_task cfg rank prot st src prio
      (.ok (szOf (getCachePath cfg src))) now) :
    (out.enqueued = [] → MgrInv cfg szOf out.state) ∧
    (∀ task rest, out.enqueued = task :: rest →
      rest = [] ∧ task.cache_path = getCachePath cfg src ∧
      task.file_size = some (szOf (getCachePath cfg src)) ∧ task.max_retries = 3 ∧
      keysNodup out.state.table ∧
      filesMatchCached out.state.table out.state.fsFiles ∧
      sizesConsistent szOf out.state.table ∧
      get_current_cache_size out.state.table + szOf (getCachePath cfg src)
        ≤ cfg.max_cache_size_bytes ∧
      ∃ e, lookupTable out.state.table (getCachePath cfg src) = some e ∧
        e.status.is_caching = true ∧ e.size = szOf (getCachePath cfg src)) := by
  obtain ⟨hn, hm, hsz, hI1⟩ := hInv
  subst hout
  unfold submit_cache_task
  dsimp only
  cases hl : lookupTable st.table (getCachePath cfg src) with
  | none =>
    dsimp only
    have hfsp : st.fsFiles (getCachePath cfg src) = false := by
      rcases hfs0 : st.fsFiles (getCachePath cfg src) with _ | _
      · rfl
      · obtain ⟨e', hl', -⟩ := (hm _).mp hfs0
        rw [hl] at hl'
        exact Option.noConfusion hl'
    refine submitAfterEntry_spec cfg rank prot
      ⟨insertTable st.table (getCachePath cfg src)
        (((CacheEntry.new (szOf (getCachePath cfg src)) now).with_priority
          prio).start_caching (szOf (getCachePath cfg src)) now), st.fsFiles⟩
      src (getCachePath cfg src) prio (szOf (getCachePath cfg src)) now szOf
      ?_ ?_ ?_ ?_ rfl ?_
    · exact keysNodup_insertTable _ _ _ hn
    · intro q
      dsimp only
      rw [lookup_insertTable]
      by_cases hq : q = getCachePath cfg src
      · rw [if_pos hq, hq, hfsp]
        simp [CacheEntry.start_caching, CacheStatus.is_cached]
      · rw [if_neg hq]
        exact hm q
    · intro q e hq
      dsimp only at hq
      rw [lookup_insertTable] at hq
      by_cases hqp : q = getCachePath cfg src
      · rw [if_pos hqp] at hq
        have hh := Option.some.inj hq
        rw [← hh, hqp]
        rfl
      · rw [if_neg hqp] at hq
        exact hsz q e hq
    · dsimp only
      rw [get_current_cache_size_insertTable]
      have h1 : cachedWeight (((CacheEntry.new (szOf (getCachePath cfg src))
          now).with_priority prio).start_caching (szOf (getCachePath cfg src)) now) = 0 := rfl
      have h2 := get_current_cache_size_eraseTable_le st.table (getCachePath cfg src)
      omega
    · intro e hq
      dsimp only at hq
      rw [lookup_insertTable, if_pos rfl] at hq
      have hh := Option.some.inj hq
      rw [← hh]
      rfl
  | some e =>
    dsimp only
    cases hst : e.status with
    | cached a b c =>
      dsimp only
      refine ⟨fun _ => ⟨hn, hm, hsz, hI1⟩, fun task rest htask => absurd htask (by simp)⟩
    | cachingInProgress a b c =>
      dsimp only
      refine ⟨fun _ => ⟨hn, hm, hsz, hI1⟩, fun task rest htask => absurd htask (by simp)⟩
    | notCached =>
      dsimp only
      refine submitAfterEntry_spec cfg rank prot st src (getCachePath cfg src) prio
        (szOf (getCachePath cfg src)) now szOf hn hm hsz hI1 rfl ?_
      intro e' he'
      rw [hl] at he'
      have hee : e = e' := by injection he'
      rw [← hee, hst]
      rfl
    | failed a b c =>
      dsimp only
      refine submitAfterEntry_spec cfg rank prot st src (getCachePath cfg src) prio
        (szOf (getCachePath cfg src)) now szOf hn hm hsz hI1 rfl ?_
      intro e' he'
      rw [hl] at he'
      have hee : e = e' := by injection he'
      rw [← hee, hst]
      rfl

theorem promoteSeq_inv (cfg : Config)
    (rank : RPath × CacheEntry → RPath × CacheEntry → Ordering)
    (prot : List RPath) (szOf : RPath → Nat) (st : MgrState) (stp : PromoteStep)
    (hInv : MgrInv cfg szOf st) :
    MgrInv cfg szOf (promoteSeq cfg rank prot szOf st stp) := by
  unfold promoteSeq
  dsimp only
  obtain ⟨hempty, hfull⟩ := submit_spec cfg rank prot st stp.src stp.prio stp.now szOf hInv _ rfl
  cases henq : (submit_cache_task cfg rank prot st stp.src stp.prio
      (.ok (szOf (getCachePath cfg stp.src))) stp.now).enqueued with
  | nil =>
    dsimp only
    exact hempty henq
  | cons task rest =>
    dsimp only
    obtain ⟨-, hcp, hfsz, -, hn, hm, hsz, hbound, e, hle, hec, hesz⟩ := hfull task rest henq
    have hecached : e.status.is_cached = false := is_cached_false_of_is_caching _ hec
    have hweight : cachedWeight e = 0 := by
      unfold cachedWeight
      rw [hecached]
      rfl
    have hcb := get_current_cache_size_eraseTable _ _ e hn hle
    have hfspfalse : (submit_cache_task cfg rank prot st stp.src stp.prio
        (.ok (szOf (getCachePath cfg stp.src))) stp.now).state.fsFiles
          (getCachePath cfg stp.src) = false := by
      rcases hfs0 : (submit_cache_task cfg rank prot st stp.src stp.prio
          (.ok (szOf (getCachePath cfg stp.src))) stp.now).state.fsFiles
            (getCachePath cfg stp.src) with _ | _
      · rfl
      · obtain ⟨e', hl', hc'⟩ := (hm _).mp hfs0
        rw [hle] at hl'
        have hee : e = e' := by injection hl'
        rw [← hee, hecached] at hc'
        exact Bool.noConfusion hc'
    by_cases hsucc : stp.succeeds = true
    · rw [if_pos hsucc]
      unfold completeWorker
      rw [hcp, hle, hfsz]
      simp only [Option.getD_some]
      refine ⟨keysNodup_insertTable _ _ _ hn, ?_, ?_, ?_⟩
      · intro q
        dsimp only
        rw [lookup_insertTable]
        by_cases hq : q = getCachePath cfg stp.src
        · rw [if_pos hq, if_pos hq]
          simp [CacheEntry.complete_caching, CacheStatus.is_cached]
        · rw [if_neg hq, if_neg hq]
          exact hm q
      · intro q e' hq
        dsimp only at hq
        rw [lookup_insertTable] at hq
        by_cases hq' : q = getCachePath cfg stp.src
        · rw [if_pos hq'] at hq
          have hh := Option.some.inj hq
          rw [← hh, hq']
          exact hesz
        · rw [if_neg hq'] at hq
          exact hsz q e' hq
      · dsimp only
        rw [get_current_cache_size_insertTable]
        have hwc : cachedWeight (e.complete_caching (szOf (getCachePath cfg stp.src)) none
            stp.now) = e.size := by
          unfold cachedWeight CacheEntry.complete_caching CacheStatus.is_cached
          rfl
        rw [hwc, hesz]
        omega
    · rw [if_neg hsucc]
      unfold failWorker
      rw [hcp, hle]
      dsimp only
      refine ⟨keysNodup_insertTable _ _ _ hn, ?_, ?_, ?_⟩
      · intro q
        dsimp only
        rw [lookup_insertTable]
        by_cases hq : q = getCachePath cfg stp.src
        · rw [if_pos hq, hq, hfspfalse]
          simp [CacheEntry.mark_failed, CacheStatus.is_cached]
        · rw [if_neg hq]
          exact hm q
      · intro q e' hq
        dsimp only at hq
        rw [lookup_insertTable] at hq
        by_cases hq' : q = getCachePath cfg stp.src
        · rw [if_pos hq'] at hq
          have hh := Option.some.inj hq
          rw [← hh, hq']
          exact hesz
        · rw [if_neg hq'] at hq
          exact hsz q e' hq
      · dsimp only
        rw [get_current_cache_size_insertTable]
        have hwf : cachedWeight (e.mark_failed "copy failed" task.max_retries stp.now) = 0 := by
          unfold cachedWeight CacheEntry.mark_failed CacheStatus.is_cached
          rfl
        rw [hwf]
        omega

theorem runSeq_inv (cfg : Config)
    (rank : RPath × CacheEntry → RPath × CacheEntry → Ordering)
    (prot : List RPath) (szOf : RPath → Nat) :
    ∀ (steps : List PromoteStep) (st : MgrState), MgrInv cfg szOf st →
      MgrInv cfg szOf (runSeq cfg rank prot szOf steps st) := by
  intro steps
  induction steps with
  | nil => intro st h; exact h
  | cons stp rest ih =>
    intro st h
    exact ih (promoteSeq cfg rank prot szOf st stp) (promoteSeq_inv cfg rank prot szOf st stp h)

theorem initState_inv (cfg : Config) (szOf : RPath → Nat) : MgrInv cfg szOf initState := by
  refine ⟨?_, ?_, ?_, ?_⟩
  · simp [keysNodup, initState]
  · intro p
    simp [initState, lookupTable]
  · intro p e h
    simp [initState, lookupTable] at h
  · simp [initState, get_current_cache_size]

/-- Counterexample to claim C2: against a ceiling of 3, two promotions of
declared size 2 are both accepted while each other's copy is still in
flight — admission counts only entries already *cached* — and once both
workers complete, the total declared size of cached entries is 4 > 3.
This is the claim's own scenario (N = 2, S = 2, C = 3 ≥ S) violated. -/
theorem c2_ceiling_cex :
    (submit_cache_task
        { nfs_backend_path := ⟨true, ["nfs"]⟩, cache_dir := ⟨true, ["cache"]⟩,
          max_cache_size_bytes := 3, cache_ttl_seconds := none, enable_checksums := false }
        (fun _ _ => Ordering.eq) [] initState ⟨true, ["nfs", "a"]⟩ .normal (.ok 2) 0).result
      = .ok () ∧
    (submit_cache_task
        { nfs_backend_path := ⟨true, ["nfs"]⟩, cache_dir := ⟨true, ["cache"]⟩,
          max_cache_size_bytes := 3, cache_ttl_seconds := none, enable_checksums := false }
        (fun _ _ => Ordering.eq) []
        (submit_cache_task
          { nfs_backend_path := ⟨true, ["nfs"]⟩, cache_dir := ⟨true, ["cache"]⟩,
            max_cache_size_bytes := 3, cache_ttl_seconds := none, enable_checksums := false }
          (fun _ _ => Ordering.eq) [] initState ⟨true, ["nfs", "a"]⟩ .normal (.ok 2) 0).state
        ⟨true, ["nfs", "b"]⟩ .normal (.ok 2) 0).result = .ok () ∧
    get_current_cache_size
      (completeWorker
        (completeWorker
          (submit_cache_task
            { nfs_backend_path := ⟨true, ["nfs"]⟩, cache_dir := ⟨true, ["cache"]⟩,
              max_cache_size_bytes := 3, cache_ttl_seconds := none, enable_checksums := false }
            (fun _ _ => Ordering.eq) []
            (submit_cache_task
              { nfs_backend_path := ⟨true, ["nfs"]⟩, cache_dir := ⟨true, ["cache"]⟩,
                max_cache_size_bytes := 3, cache_ttl_seconds := none, enable_checksums := false }
              (fun _ _ => Ordering.eq) [] initState ⟨true, ["nfs", "a"]⟩ .normal (.ok 2) 0).state
            ⟨true, ["nfs", "b"]⟩ .normal (.ok 2) 0).state
          ⟨true, ["cache", "a"]⟩ 2 none 1)
        ⟨true, ["cache", "b"]⟩ 2 none 1).table = 4 ∧
    ¬ (4 : Nat) ≤ 3 := by
  refine ⟨by decide, by decide, by decide, by decide⟩

/-- Claim C2, amended: admission control counts only entries that are
already cached, so concurrent in-flight promotions can overshoot the
ceiling once they complete (see the counterexample). When promotions are
sequential — each accepted promotion runs to its terminal state before the
next submission, with a stable declared size per destination path — the
sum of declared sizes of cached entries never exceeds the ceiling, for any
eviction comparator and pin-set; in particular N sequential promotions of
size S against a ceiling C ≥ S keep cached bytes ≤ C. -/
theorem c2_sequential_ceiling (cfg : Config)
    (rank : RPath × CacheEntry → RPath × CacheEntry → Ordering)
    (prot : List RPath) (szOf : RPath → Nat) (steps : List PromoteStep) :
    get_current_cache_size (runSeq cfg rank prot szOf steps initState).table
      ≤ cfg.max_cache_size_bytes :=
  (runSeq_inv cfg rank prot szOf steps initState (initState_inv cfg szOf)).2.2.2

/-! ## Claim C3 -/

/-- Claim C3: when an entry already exists for the destination path with
status cached or caching-in-progress, `submit_cache_task` (once the
source stat has succeeded) returns success as a pure no-op: the state is
unchanged, `ensure_cache_space` is not called, and no task is enqueued —
hence no worker is launched. -/
theorem c3_submit_idempotent_noop (cfg : Config)
    (rank : RPath × CacheEntry → RPath × CacheEntry → Ordering)
    (prot : List RPath) (st : MgrState) (nfs_path : RPath) (prio : CachePriority)
    (file_size now : Nat) (e : CacheEntry)
    (he : lookupTable st.table (getCachePath cfg nfs_path) = some e)
    (hst : e.status.is_cached = true ∨ e.status.is_caching = true) :
    submit_cache_task cfg rank prot st nfs_path prio (.ok file_size) now
      = { state := st, result := .ok (), ensure_called := false, enqueued := [] } := by
  unfold submit_cache_task
  dsimp only
  rw [he]
  dsimp only
  rcases hs : e.status with _ | ⟨a, b, c⟩ | ⟨a, b, c⟩ | ⟨a, b, c⟩
  · rw [hs] at hst
    rcases hst with h | h <;> exact Bool.noConfusion h
  · rfl
  · rfl
  · rw [hs] at hst
    rcases hst with h | h <;> exact Bool.noConfusion h

/-- Witness for C3 at a concrete state holding a cached entry. -/
theorem c3_submit_idempotent_noop_witness :
    submit_cache_task
        { nfs_backend_path := ⟨true, ["nfs"]⟩, cache_dir := ⟨true, ["cache"]⟩,
          max_cache_size_bytes := 3, cache_ttl_seconds := none, enable_checksums := false }
        (fun _ _ => Ordering.eq) []
        ⟨[(⟨true, ["cache", "a"]⟩, { (CacheEntry.new 2 0) with status := .cached 0 0 2 })],
         fun q => decide (q = ⟨true, ["cache", "a"]⟩)⟩
        ⟨true, ["nfs", "a"]⟩ .normal (.ok 2) 5
      = { state := ⟨[(⟨true, ["cache", "a"]⟩,
            { (CacheEntry.new 2 0) with status := .cached 0 0 2 })],
           fun q => decide (q = ⟨true, ["cache", "a"]⟩)⟩,
          result := .ok (), ensure_called := false, enqueued := [] } :=
  c3_submit_idempotent_noop
    { nfs_backend_path := ⟨true, ["nfs"]⟩, cache_dir := ⟨true, ["cache"]⟩,
      max_cache_size_bytes := 3, cache_ttl_seconds := none, enable_checksums := false }
    (fun _ _ => Ordering.eq) []
    ⟨[(⟨true, ["cache", "a"]⟩, { (CacheEntry.new 2 0) with status := .cached 0 0 2 })],
     fun q => decide (q = ⟨true, ["cache", "a"]⟩)⟩
    ⟨true, ["nfs", "a"]⟩ .normal 2 5
    { (CacheEntry.new 2 0) with status := .cached 0 0 2 }
    (by decide) (Or.inl rfl)

end NfsCachefs
